import Mathlib

/-!
Verification of the graph-to-program compilation and execution core of the
`graph-abstract-code-gen` repository.

The development shallowly embeds the Python sources:
  * `src/utils.py`   — graph normalisation (`convert_repr`), Kahn topological
    sorting (`topological_sort`), control-chain reconstruction
    (`get_execution_chain`, `get_substack_blocks`, ...);
  * `src/main.py`    — the `pipeline` compilation driver (code generation);
  * `src/scratch.py` — the Scratch-like block interpreter.

Python dictionaries are modelled as insertion-ordered association lists,
Python integers/floats as an exact numeric type built over `Rat` extended
with the IEEE sentinels (`inf`, `-inf`, `nan`), and raising an exception as
returning `Except.error`.
-/

/-- A Python exception, as raised by the embedded code. -/
inductive PyException where
  /-- `ValueError(msg)` -/
  | valueError (msg : String)
  /-- `KeyError(key)` (a failed dictionary lookup) -/
  | keyError (key : String)
  /-- `NameError` / `UnboundLocalError` for an undefined name -/
  | nameError (n : String)
deriving DecidableEq, Repr

/-- Equality of embedded run results is decidable (used to evaluate the
embedding at concrete inputs). -/
instance exceptDecEq {ε α : Type} [DecidableEq ε] [DecidableEq α] :
    DecidableEq (Except ε α)
  | .ok a, .ok b =>
      if h : a = b then .isTrue (by rw [h])
      else .isFalse (fun hc => h (Except.ok.inj hc))
  | .ok _, .error _ => .isFalse (fun hc => Except.noConfusion hc)
  | .error _, .ok _ => .isFalse (fun hc => Except.noConfusion hc)
  | .error e, .error e2 =>
      if h : e = e2 then .isTrue (by rw [h])
      else .isFalse (fun hc => h (Except.error.inj hc))

/-- First-match association-list lookup: the model of `d[k]` / `d.get(k)`
on a Python dict represented by its insertion-ordered item list. -/
def assocLookup {β : Type} : List (String × β) → String → Option β
  | [], _ => none
  | (k, v) :: t, key => if k = key then some v else assocLookup t key

/-- A number as manipulated by the Python code: an exact rational together
with the IEEE sentinel values produced by the degenerate numeric policy. -/
inductive PyNum where
  | finite (q : Rat)
  | posInf
  | negInf
  | nan
deriving DecidableEq, Repr

/-- A Python runtime value flowing through the interpreter:
a number (`int`/`float` collapsed to exact arithmetic), a string or a bool. -/
inductive SVal where
  | num (n : PyNum)
  | str (s : String)
  | bool (b : Bool)
deriving DecidableEq, Repr

/-- A node of the canonical (edge-list) graph: `{"name": ..., "value": ...}`. -/
structure ANode where
  name : String
  value : Option SVal
deriving DecidableEq, Repr

/-- A canonical edge
`{"outNodeID": ..., "outPortID": ..., "inNodeID": ..., "inPortID": ...}`. -/
structure AEdge where
  outNodeID : String
  outPortID : String
  inNodeID : String
  inPortID : String
deriving DecidableEq, Repr

/-- The canonical graph `{"nodes": {id: node}, "edges": [edge]}`. -/
structure AGraph where
  nodes : List (String × ANode)
  edges : List AEdge
deriving DecidableEq, Repr

/-- The node ids of a canonical graph, in declaration order
(iteration over the `nodes` dict). -/
def AGraph.keys (g : AGraph) : List String := g.nodes.map Prod.fst

/-! ## `topological_sort` (src/utils.py lines 5-41)

Kahn's algorithm.  The `defaultdict(list)` adjacency built by the edge loop
is modelled by `adjOf` (for each source, its targets in edge order), the
`defaultdict(int)` in-degree map by `degOf` (for each node the number of
incoming edges, an integer because Python's counters may go negative). -/

/-- `adj_list[v]` after the edge loop: targets of the edges leaving `v`,
in edge order. -/
def adjOf (edges : List AEdge) (v : String) : List String :=
  (edges.filter (fun e => e.outNodeID = v)).map (fun e => e.inNodeID)

/-- `in_degree[v]` after the initialisation loops: the number of edges
entering `v`. -/
def degOf (edges : List AEdge) (v : String) : Int :=
  ((edges.filter (fun e => e.inNodeID = v)).length : Int)

/-- The body of `for neighbor in adj_list[current]`: decrement each
neighbour's in-degree and append it to the queue when it reaches zero. -/
def processNbs : List String → (String → Int) → List String → ((String → Int) × List String)
  | [], d, q => (d, q)
  | nb :: rest, d, q =>
      let d' : String → Int := fun v => if v = nb then d nb - 1 else d v
      if d' nb = 0 then processNbs rest d' (q ++ [nb]) else processNbs rest d' q

/-- The `while queue:` loop of `topological_sort`.  The loop provably pops
each node id at most once, so `fuel = |nodes| + |edges|` (supplied by
`topological_sort`) never runs out on well-formed inputs. -/
def kahnLoop (adj : String → List String) :
    Nat → List String → (String → Int) → List String → List String
  | _, [], _, res => res
  | 0, _ :: _, _, res => res
  | fuel + 1, x :: q, d, res =>
      let p := processNbs (adj x) d q
      kahnLoop adj fuel p.2 p.1 (res ++ [x])

/-- `topological_sort(graph_data)` (src/utils.py lines 5-41): Kahn's
algorithm over `nodes` and `edges`; raises
`ValueError("Error: Graph is not a DAG")` when the produced order omits a
node. -/
def topological_sort (g : AGraph) : Except PyException (List String) :=
  let d0 := degOf g.edges
  let q0 := g.keys.filter (fun v => d0 v = 0)
  let res := kahnLoop (adjOf g.edges) (g.keys.length + g.edges.length) q0 d0 []
  if res.length ≠ g.keys.length then .error (.valueError ("Error: Graph is not a DAG"))
  else .ok res

/-! ## Control-chain reconstruction (src/utils.py lines 170-210) -/

/-- `get_arg_val(id, port_id, edges)`: the source node id of the first edge
into `(id, port_id)`, if any. -/
def get_arg_val (id port_id : String) (edges : List AEdge) : Option String :=
  (edges.find? (fun e => e.inNodeID = id ∧ e.inPortID = port_id)).map
    (fun e => e.outNodeID)

/-- The `exec_map` dict of `get_execution_chain`: successive `THEN → EXEC`
edges assign (later edges overwrite earlier ones, as in a Python dict). -/
def execMapOf (edges : List AEdge) : String → Option String :=
  edges.foldl
    (fun m e =>
      if e.outPortID = "THEN" ∧ e.inPortID = "EXEC" then
        fun v => if v = e.outNodeID then some e.inNodeID else m v
      else m)
    (fun _ => none)

/-- The `while current_node is not None and current_node not in visited`
loop: follow the successor map, stopping at a dead end or at the first
already-visited node.  The chain can provably not exceed
`|exec_map| + 1 ≤ |edges| + 1` nodes, the fuel its caller supplies. -/
def chainLoop (m : String → Option String) : Nat → List String → String → List String
  | 0, chain, _ => chain
  | fuel + 1, chain, current =>
      if current ∈ chain then chain
      else
        match m current with
        | none => chain ++ [current]
        | some nxt => chainLoop m fuel (chain ++ [current]) nxt

/-- `get_execution_chain(id, edges)` (src/utils.py lines 194-210). -/
def get_execution_chain (id : String) (edges : List AEdge) : List String :=
  chainLoop (execMapOf edges) (edges.length + 1) [] id

/-- `get_substack_blocks(id, edges)` (src/utils.py lines 176-183). -/
def get_substack_blocks (id : String) (edges : List AEdge) : List String :=
  (edges.filter (fun e =>
      e.outNodeID = id ∧ (e.outPortID = "SUBSTACK" ∨ e.outPortID = "SUBSTACK_IF"))).flatMap
    (fun e => get_execution_chain e.inNodeID edges)

/-- `get_substackelse_blocks(id, edges)` (src/utils.py lines 186-191). -/
def get_substackelse_blocks (id : String) (edges : List AEdge) : List String :=
  (edges.filter (fun e => e.outNodeID = id ∧ e.outPortID = "SUBSTACK_ELSE")).flatMap
    (fun e => get_execution_chain e.inNodeID edges)

/-! ## `convert_repr` (src/utils.py lines 44-149)

The Graph Normalizer: converts the per-node adjacency encoding
(`{nodeId: {"nodeName": ..., "value": ..., "edges": [{"portID": ...,
"otherNodeID": ...}]}}`) into the canonical edge-list graph, inferring the
direction of every wire. -/

/-- Lexicographic order on code points (Python string `<`). -/
def strLtChars : List Char → List Char → Bool
  | [], [] => false
  | [], _ :: _ => true
  | _ :: _, [] => false
  | a :: as, b :: bs =>
      if a.toNat < b.toNat then true
      else if b.toNat < a.toNat then false
      else strLtChars as bs

/-- Python `<` on `(string, string)` tuples: lexicographic. -/
def pairLt (p q : String × String) : Bool :=
  strLtChars p.1.toList q.1.toList ||
    (p.1 = q.1 && strLtChars p.2.toList q.2.toList)

/-- One adjacency declaration `{"portID": ..., "otherNodeID": ...}`. -/
structure BEdge where
  portID : String
  otherNodeID : String
deriving DecidableEq, Repr

/-- One node of the adjacency-encoded graph. -/
structure BNode where
  nodeName : String
  value : Option SVal
  edges : List BEdge
deriving DecidableEq, Repr

/-- A port entry of a schema (`{"id": ...}`). -/
structure Port where
  id : String
deriving DecidableEq, Repr

/-- A block-kind schema from the reference catalog:
`{"inPorts": [...], "fields": [...], "outPorts": [...]}`. -/
structure Schema where
  inPorts : List Port
  fields : List Port
  outPorts : List Port
deriving DecidableEq, Repr

/-- `node_reference.get(name, {})` falls back to an empty schema. -/
def emptySchema : Schema := ⟨[], [], []⟩

/-- `any(port["id"] == pid for port in ports)`. -/
def portMem (ports : List Port) (pid : String) : Bool :=
  ports.any (fun p => p.id = pid)

/-- `tuple(sorted([(node_id, port_id), (other_node_id, other_port_id)]))`:
Python sorts the two tuples lexicographically (the sort is stable, so for
equal tuples the original order is kept). -/
def sortPair (p q : String × String) : (String × String) × (String × String) :=
  if pairLt q p then (q, p) else (p, q)

/-- The names registered in the reference catalog. -/
def refKeys (ref : List (String × Schema)) : List String := ref.map Prod.fst

/-- The direction-inference logic of `convert_repr` for a wire between two
non-Constant endpoints (src/utils.py lines 96-138): try the enumerated node
as source first; only if that fails, try the reverse; only if both fail,
raise the "Could not determine edge direction" `ValueError`. -/
def resolveDirection (ref : List (String × Schema))
    (node_name port_id other_node_name other_port_id node_id other_node_id : String) :
    Except PyException (String × String × String × String) :=
  let node1_schema := (assocLookup ref node_name).getD emptySchema
  let node2_schema := (assocLookup ref other_node_name).getD emptySchema
  let node1_port_is_output := portMem node1_schema.outPorts port_id
  let node2_port_is_input :=
    portMem node2_schema.inPorts other_port_id || portMem node2_schema.fields other_port_id
  if node1_port_is_output && node2_port_is_input then
    .ok (node_id, port_id, other_node_id, other_port_id)
  else
    let node2_port_is_output := portMem node2_schema.outPorts other_port_id
    let node1_port_is_input :=
      portMem node1_schema.inPorts port_id || portMem node1_schema.fields port_id
    if node2_port_is_output && node1_port_is_input then
      .ok (other_node_id, other_port_id, node_id, port_id)
    else
      .error (.valueError ("Could not determine edge direction between " ++ node_name ++
        "." ++ (if port_id ≠ "" then port_id else "undefined") ++ " and " ++
        other_node_name ++ "." ++ (if other_port_id ≠ "" then other_port_id else "undefined")))

/-- The wire direction "enumerated node is the source" is valid under the
schemas: its port is among its kind's `outPorts` and the peer's port is
among the peer kind's `inPorts` or `fields`. -/
def dirValid1 (ref : List (String × Schema))
    (node_name port_id other_node_name other_port_id : String) : Bool :=
  portMem ((assocLookup ref node_name).getD emptySchema).outPorts port_id &&
    (portMem ((assocLookup ref other_node_name).getD emptySchema).inPorts other_port_id ||
     portMem ((assocLookup ref other_node_name).getD emptySchema).fields other_port_id)

/-- The reverse direction "peer node is the source" is valid under the
schemas. -/
def dirValid2 (ref : List (String × Schema))
    (node_name port_id other_node_name other_port_id : String) : Bool :=
  portMem ((assocLookup ref other_node_name).getD emptySchema).outPorts other_port_id &&
    (portMem ((assocLookup ref node_name).getD emptySchema).inPorts port_id ||
     portMem ((assocLookup ref node_name).getD emptySchema).fields port_id)

/-- The running state of `convert_repr`: the `processed_edge_pairs` set and
the canonical edges emitted so far. -/
structure ConvState where
  processed : List ((String × String) × (String × String))
  aedges : List AEdge
deriving DecidableEq, Repr

/-- The reciprocal-port search at the top of the inner loop of
`convert_repr` (`other_port_id`): the port the peer node declares back
towards `node_id`, defaulting to the empty string. -/
def otherPortIdOf (other_data : BNode) (node_id : String) : String :=
  ((other_data.edges.find? (fun oe => oe.otherNodeID = node_id)).map
    (fun oe => oe.portID)).getD ""

/-- `connection_id`: the unordered pair of `(node, port)` endpoints of a
wire, used to deduplicate the two adjacency declarations of one wire. -/
def connIdOf (node_id : String) (edge : BEdge) (other_data : BNode) :
    (String × String) × (String × String) :=
  sortPair (node_id, edge.portID) (edge.otherNodeID, otherPortIdOf other_data node_id)

/-- The body of the inner `for edge in node_data.get("edges", [])` loop of
`convert_repr`. -/
def convProcessEdge (graph : List (String × BNode)) (ref : List (String × Schema))
    (node_id node_name : String) (st : ConvState) (edge : BEdge) :
    Except PyException ConvState :=
  match assocLookup graph edge.otherNodeID with
  | none => .error (.keyError edge.otherNodeID)
  | some other_data =>
      if connIdOf node_id edge other_data ∈ st.processed then .ok st
      else
        if node_name = "Constant" then
          .ok ⟨connIdOf node_id edge other_data :: st.processed,
            st.aedges ++ [⟨node_id, "", edge.otherNodeID, otherPortIdOf other_data node_id⟩]⟩
        else if other_data.nodeName = "Constant" then
          .ok ⟨connIdOf node_id edge other_data :: st.processed,
            st.aedges ++ [⟨edge.otherNodeID, "", node_id, edge.portID⟩]⟩
        else
          match resolveDirection ref node_name edge.portID other_data.nodeName
              (otherPortIdOf other_data node_id) node_id edge.otherNodeID with
          | .error err => .error err
          | .ok (o, op, i, ip) =>
              .ok ⟨connIdOf node_id edge other_data :: st.processed,
                st.aedges ++ [⟨o, op, i, ip⟩]⟩

/-- The body of the outer `for node_id, node_data in agent_b_graph.items()`
loop of `convert_repr`: nodes whose name is neither registered nor
`"Constant"` are skipped entirely. -/
def convProcessNode (graph : List (String × BNode)) (ref : List (String × Schema))
    (st : ConvState) (entry : String × BNode) : Except PyException ConvState :=
  if entry.2.nodeName ∉ refKeys ref ∧ entry.2.nodeName ≠ "Constant" then .ok st
  else entry.2.edges.foldlM (convProcessEdge graph ref entry.1 entry.2.nodeName) st

/-- `convert_repr(agent_b_graph, node_reference)` (src/utils.py lines
44-149). -/
def convert_repr (graph : List (String × BNode)) (ref : List (String × Schema)) :
    Except PyException AGraph := do
  let nodes := graph.map (fun p => (p.1, ANode.mk p.2.nodeName p.2.value))
  let st ← graph.foldlM (convProcessNode graph ref) ⟨[], []⟩
  .ok ⟨nodes, st.aedges⟩

/-- The name recorded for a node id in an adjacency-encoded graph. -/
def nameInGraph (graph : List (String × BNode)) (id : String) : Option String :=
  (assocLookup graph id).map (fun nd => nd.nodeName)

/-! ## The Scratch-like block interpreter (src/scratch.py)

Python `float`/`int` arithmetic is modelled exactly over `Rat` plus the
IEEE sentinels.  `float(...)` coercion of a runtime value is `toNum`; it
raises `ValueError` on a non-numeric string, exactly the exception the
comparison blocks catch.  (The model of `float(str)` accepts optional sign,
digits and one decimal point; exotic accepted spellings such as `"inf"`,
`"1e5"` or `"1_0"` are not modelled — no claim depends on them.)  String
formatting of numbers (`pyStr`) prints integral values Python-float style
(`5.0`); its exact text for non-integral values is irrelevant to every
claim. -/

/-- Digits to their value, most significant first. -/
def digitsToNat (cs : List Char) : Nat :=
  cs.foldl (fun a c => a * 10 + (c.toNat - 48)) 0

/-- All characters are decimal digits. -/
def allDigits (cs : List Char) : Bool := cs.all (fun c => c.isDigit)

/-- `s.strip()`: drop whitespace from both ends. -/
def pyStrip (cs : List Char) : List Char :=
  ((cs.dropWhile (fun c => c.isWhitespace)).reverse.dropWhile
    (fun c => c.isWhitespace)).reverse

/-- The model of Python `float(s)` on a string: optional surrounding
whitespace, optional sign, digits with at most one decimal point. -/
def parseFloat (s : String) : Option Rat :=
  let t := pyStrip s.toList
  let signed : Bool × List Char :=
    match t with
    | '-' :: r => (true, r)
    | '+' :: r => (false, r)
    | r => (false, r)
  let r := signed.2
  let intPart := r.takeWhile (fun c => c ≠ '.')
  let rest := r.dropWhile (fun c => c ≠ '.')
  let mag : Option Rat :=
    match rest with
    | [] => if allDigits intPart ∧ intPart ≠ [] then some ((digitsToNat intPart : Rat)) else none
    | _ :: frac =>
        if allDigits intPart ∧ allDigits frac ∧ (intPart ≠ [] ∨ frac ≠ []) then
          some ((digitsToNat intPart : Rat) + (digitsToNat frac : Rat) / ((10 : Rat) ^ frac.length))
        else none
  match mag with
  | none => none
  | some m => some (if signed.1 then -m else m)

/-- `float(v)` on a runtime value: numbers pass through, bools map to
`1.0`/`0.0`, strings are parsed or raise `ValueError`. -/
def toNum (v : SVal) : Except PyException PyNum :=
  match v with
  | .num n => .ok n
  | .bool b => .ok (.finite (if b then 1 else 0))
  | .str s =>
      match parseFloat s with
      | some q => .ok (.finite q)
      | none => .error (.valueError ("could not convert string to float: '" ++ s ++ "'"))

/-- `float(num) == 0` (never true for the sentinels). -/
def PyNum.isZero : PyNum → Bool
  | .finite q => q = 0
  | _ => false

/-- Python float `>`: any comparison with `nan` is false. -/
def PyNum.gt : PyNum → PyNum → Bool
  | .nan, _ => false
  | _, .nan => false
  | .posInf, .posInf => false
  | .posInf, _ => true
  | _, .posInf => false
  | .negInf, _ => false
  | .finite _, .negInf => true
  | .finite a, .finite b => a > b

/-- Python float `/` for a nonzero divisor (the dividing block guards the
zero case before calling this, so the `finite _ / finite 0` arm is
unreachable from the embedded code). -/
def PyNum.div : PyNum → PyNum → PyNum
  | .nan, _ => .nan
  | _, .nan => .nan
  | .posInf, .posInf => .nan
  | .posInf, .negInf => .nan
  | .negInf, .posInf => .nan
  | .negInf, .negInf => .nan
  | .posInf, .finite q => if q < 0 then .negInf else .posInf
  | .negInf, .finite q => if q < 0 then .posInf else .negInf
  | .finite _, .posInf => .finite 0
  | .finite _, .negInf => .finite 0
  | .finite a, .finite b => .finite (a / b)

/-- Python float `%` for a nonzero divisor (result carries the divisor's
sign; the modulo block guards the zero case). -/
def PyNum.mod : PyNum → PyNum → PyNum
  | .nan, _ => .nan
  | _, .nan => .nan
  | .posInf, _ => .nan
  | .negInf, _ => .nan
  | .finite a, .posInf => if a < 0 then .posInf else .finite a
  | .finite a, .negInf => if 0 < a then .negInf else .finite a
  | .finite a, .finite b => if b = 0 then .nan else .finite (a - b * (((a / b).floor : Int) : Rat))

/-- Python float `+`. -/
def PyNum.add : PyNum → PyNum → PyNum
  | .nan, _ => .nan
  | _, .nan => .nan
  | .posInf, .negInf => .nan
  | .negInf, .posInf => .nan
  | .posInf, _ => .posInf
  | _, .posInf => .posInf
  | .negInf, _ => .negInf
  | _, .negInf => .negInf
  | .finite a, .finite b => .finite (a + b)

/-- `str(q)` for a finite number (exact only for integral values, which are
the only ones any claim formats). -/
def ratStr (q : Rat) : String :=
  if q.den = 1 then toString q.num ++ ".0" else toString q.num ++ "/" ++ toString q.den

/-- `str(n)` for a number. -/
def PyNum.toStr : PyNum → String
  | .finite q => ratStr q
  | .posInf => "inf"
  | .negInf => "-inf"
  | .nan => "nan"

/-- Python `str(v)`. -/
def pyStr : SVal → String
  | .str s => s
  | .bool b => if b then "True" else "False"
  | .num n => n.toStr

/-- Python `repr(v)` (as used when formatting a list into an f-string). -/
def pyRepr : SVal → String
  | .str s => "'" ++ s ++ "'"
  | v => pyStr v

/-- Python `str(list)`: `[repr(x), ...]`. -/
def pyReprList (rs : List SVal) : String :=
  "[" ++ String.intercalate ", " (rs.map pyRepr) ++ "]"

/-- Python truthiness of a runtime value. -/
def pyTruthy : SVal → Bool
  | .num (.finite q) => q ≠ 0
  | .num _ => true
  | .str s => s ≠ ""
  | .bool b => b

/-- Python string `>` (lexicographic on code points). -/
def strGt (a b : String) : Bool := strLtChars b.toList a.toList

/-- `GreaterThanBlock.execute` after its operands are evaluated
(src/scratch.py lines 650-660): try numeric coercion of both operands and
compare; on `ValueError` fall back to string comparison. -/
def gtVals (v1 v2 : SVal) : SVal :=
  match toNum v1, toNum v2 with
  | .ok f1, .ok f2 => .bool (f1.gt f2)
  | _, _ => .bool (strGt (pyStr v1) (pyStr v2))

/-- `DivideBlock.execute` after its operands are evaluated (src/scratch.py
lines 612-621): coerce the divisor, return `inf` if it is zero (the
dividend is not even coerced), otherwise divide. -/
def divideVals (v1 v2 : SVal) : Except PyException SVal := do
  let f2 ← toNum v2
  if f2.isZero then .ok (.num .posInf)
  else do
    let f1 ← toNum v1
    .ok (.num (f1.div f2))

/-- `ModBlock.execute` after its operands are evaluated (src/scratch.py
lines 816-825): `NaN` for a zero divisor. -/
def modVals (v1 v2 : SVal) : Except PyException SVal := do
  let f2 ← toNum v2
  if f2.isZero then .ok (.num .nan)
  else do
    let f1 ← toNum v1
    .ok (.num (f1.mod f2))

/-- The mutable Execution Context: Python dict from state keys to values. -/
abbrev Ctx := List (String × SVal)

/-- `context.get(k, dflt)`. -/
def ctxGet (ctx : Ctx) (k : String) (dflt : SVal) : SVal := (assocLookup ctx k).getD dflt

/-- `context[k] = v` (in-place update, insertion order preserved). -/
def ctxSet : Ctx → String → SVal → Ctx
  | [], k, v => [(k, v)]
  | (k', v') :: t, k, v => if k' = k then (k, v) :: t else (k', v') :: ctxSet t k v

/-! The Runtime Block tree.  A subset of the block classes of
`src/scratch.py` sufficient for the claims is embedded; a block input is a
literal or a nested block (`add_input`), a compound block owns its
substack. -/

mutual
/-- A Runtime Block (one constructor per embedded `ScratchBlock`
subclass). -/
inductive ScratchBlock where
  /-- `WhenFlagClickedBlock` -/
  | whenFlagClicked
  /-- `SayBlock` -/
  | say (message : BInput)
  /-- `SetVariableBlock` -/
  | setVariable (varName : String) (value : BInput)
  /-- `ChangeVariableByBlock` -/
  | changeVariableBy (varName : String) (value : BInput)
  /-- `GetVariableBlock` -/
  | getVariable (varName : String)
  /-- `MouseDownBlock` -/
  | mouseDown
  /-- `IfBlock` -/
  | ifBlock (condition : ScratchBlock) (substack : BlockList)
  /-- `RepeatBlock` -/
  | repeatBlock (times : BInput) (substack : BlockList)
  /-- `ForeverBlock` -/
  | forever (substack : BlockList)
  /-- `DivideBlock` -/
  | divide (num1 : BInput) (num2 : BInput)
  /-- `ModBlock` -/
  | modBlock (num1 : BInput) (num2 : BInput)
  /-- `GreaterThanBlock` -/
  | greaterThan (operand1 : BInput) (operand2 : BInput)
/-- A block input: a plain value or a nested reporter block. -/
inductive BInput where
  | lit (v : SVal)
  | blk (b : ScratchBlock)
/-- An owned ordered list of child blocks (a substack, or a next-chain). -/
inductive BlockList where
  | nil
  | cons (b : ScratchBlock) (bs : BlockList)
end

mutual
/-- `ScratchBlock.execute(context)`: evaluates one block against the
context, returning its reported value and the updated context, or the
exception it raises. -/
def ScratchBlock.execute : ScratchBlock → Ctx → Except PyException (SVal × Ctx)
  | .whenFlagClicked, ctx => .ok (.str ("Program started"), ctx)
  | .say message, ctx => do
      let (m, c) ← evalInput message ctx
      .ok (.str ("Says: " ++ pyStr m), c)
  | .setVariable varName value, ctx => do
      let (v, c) ← evalInput value ctx
      .ok (.str ("Set " ++ varName ++ " to " ++ pyStr v), ctxSet c ("var_" ++ varName) v)
  | .changeVariableBy varName value, ctx => do
      let (v, c) ← evalInput value ctx
      let current := ctxGet c ("var_" ++ varName) (.num (.finite 0))
      let newVal : SVal :=
        match toNum current, toNum v with
        | .ok a, .ok b => .num (a.add b)
        | _, _ => .str (pyStr current ++ pyStr v)
      .ok (.str ("Changed " ++ varName ++ " by " ++ pyStr v),
        ctxSet c ("var_" ++ varName) newVal)
  | .getVariable varName, ctx => .ok (ctxGet ctx ("var_" ++ varName) (.num (.finite 0)), ctx)
  | .mouseDown, ctx => .ok (ctxGet ctx ("mouse_down") (.bool false), ctx)
  | .ifBlock condition substack, ctx => do
      let (cv, c) ← condition.execute ctx
      if pyTruthy cv then do
        let (rs, c2) ← execList substack c
        .ok (.str ("If condition met: " ++ pyReprList rs), c2)
      else
        .error (.nameError ("results"))
  | .repeatBlock times substack, ctx => do
      let (tv, c) ← evalInput times ctx
      let (rs, c2) ← execList substack c
      .ok (.str ("Repeated " ++ pyStr tv ++ " times: " ++ pyReprList rs), c2)
  | .forever substack, ctx => do
      let (rs, c2) ← execList substack ctx
      .ok (.str ("Forever loop: " ++ pyReprList rs), c2)
  | .divide num1 num2, ctx => do
      let (v1, c1) ← evalInput num1 ctx
      let (v2, c2) ← evalInput num2 c1
      let r ← divideVals v1 v2
      .ok (r, c2)
  | .modBlock num1 num2, ctx => do
      let (v1, c1) ← evalInput num1 ctx
      let (v2, c2) ← evalInput num2 c1
      let r ← modVals v1 v2
      .ok (r, c2)
  | .greaterThan operand1 operand2, ctx => do
      let (v1, c1) ← evalInput operand1 ctx
      let (v2, c2) ← evalInput operand2 c1
      .ok (gtVals v1 v2, c2)
/-- `x if not isinstance(x, ScratchBlock) else x.execute(context)`: the
input-resolution idiom at the top of every `execute`. -/
def evalInput : BInput → Ctx → Except PyException (SVal × Ctx)
  | .lit v, ctx => .ok (v, ctx)
  | .blk b, ctx => b.execute ctx
/-- The `for block in self.substack:` loop shared by the compound blocks:
one linear pass executing each child once, collecting the results. -/
def execList : BlockList → Ctx → Except PyException (List SVal × Ctx)
  | .nil, ctx => .ok ([], ctx)
  | .cons b bs, ctx => do
      let (r, c) ← b.execute ctx
      let (rs, c2) ← execList bs c
      .ok (r :: rs, c2)
end

/-- `ScratchProgram._execute_script`: walk the next-chain from the script's
hat block, executing each block and collecting its result. -/
def executeScript : BlockList → Ctx → Except PyException (List SVal × Ctx)
  | .nil, ctx => .ok ([], ctx)
  | .cons b bs, ctx => do
      let (r, c) ← b.execute ctx
      let (rs, c2) ← executeScript bs c
      .ok (r :: rs, c2)

/-- A `ScratchProgram`: its scripts, each a next-chain of blocks. -/
structure ScratchProgram where
  scripts : List BlockList

/-- The default Execution Context built by `ScratchProgram.execute` when
none is supplied: `{"x": 0, "y": 0, "direction": 0, "size": 100}`. -/
def defaultContext : Ctx :=
  [("x", .num (.finite 0)), ("y", .num (.finite 0)), ("direction", .num (.finite 0)),
   ("size", .num (.finite 100))]

/-- The `for script in self.scripts:` loop of `ScratchProgram.execute`. -/
def runScripts : List BlockList → Ctx → Except PyException (List (List SVal) × Ctx)
  | [], ctx => .ok ([], ctx)
  | s :: ss, ctx => do
      let (r, c) ← executeScript s ctx
      let (rs, c2) ← runScripts ss c
      .ok (r :: rs, c2)

/-- `ScratchProgram.execute(context=None)` (src/scratch.py lines 991-1001):
run every script in order against one shared context, returning the
per-script result lists and the final context. -/
def ScratchProgram.execute (p : ScratchProgram) (ctxOpt : Option Ctx) :
    Except PyException (List (List SVal) × Ctx) :=
  let ctx := match ctxOpt with
    | none => defaultContext
    | some c => c
  runScripts p.scripts ctx

/-! ## The `pipeline` compilation driver (src/main.py lines 20-125)

`pipeline` turns a (parsed) graph into the text of a Python program: it
first calls `topological_sort`, then emits one block-construction line per
node in that order, the substack attachments, the `connect_next` wiring,
the `add_script` registration of the first trigger node, and the execution
footer.  Any exception (in particular the non-DAG `ValueError`) aborts the
whole compilation — the `except` clause writes an empty program file, so no
partial program is ever produced.  (Numeric literals are rendered through
`pyStr`, which differs from Python's `str(int)` only in printing `5.0` for
an integral constant; no claim depends on the rendered text.) -/

/-- The rendering of a Constant's stored value into the generated line
(strings are single-quoted, `None` prints as `None`). -/
def valCode (val : Option SVal) : String :=
  match val with
  | some (.str s) => "'" ++ s ++ "'"
  | some v => pyStr v
  | none => "None"

/-- The fixed prelude of every generated program (src/main.py lines 42-50). -/
def headerLines : List String :=
  [("import sys"),
   ("import os"),
   ("project_root = os.path.join(os.path.dirname(__file__), '../../../')"),
   ("resolved_path = os.path.abspath(project_root)"),
   ("sys.path.append(resolved_path)"),
   ("from scratch import *"),
   ("program = ScratchProgram()")]

/-- The `# Create blocks` loop (src/main.py lines 53-82): one line per node
in topological order, plus the ids owning a body (`SUBSTACK`/`SUBSTACK_IF`)
or an else-body (`SUBSTACK_ELSE`). -/
def buildBlockLines (graph : AGraph) (ref : List (String × Schema))
    (ordered : List String) :
    Except PyException (List String × List String × List String) :=
  ordered.foldlM
    (fun (st : List String × List String × List String) id =>
      match assocLookup graph.nodes id with
      | none => .error (.keyError id)
      | some nd =>
          if nd.name = "Constant" then
            .ok (st.1 ++ [id ++ " = " ++ valCode nd.value], st.2.1, st.2.2)
          else
            match assocLookup ref nd.name with
            | none => .error (.keyError nd.name)
            | some schema =>
                let ports := schema.inPorts ++ schema.fields
                let params := (ports.filter (fun p => p.id ≠ "EXEC")).map
                  (fun p => p.id.toLower ++ "=" ++ ((get_arg_val id p.id graph.edges).getD ("None")))
                let hs := st.2.1 ++ (schema.outPorts.filter
                  (fun p => p.id = "SUBSTACK" ∨ p.id = "SUBSTACK_IF")).map (fun _ => id)
                let he := st.2.2 ++ (schema.outPorts.filter
                  (fun p => p.id = "SUBSTACK_ELSE")).map (fun _ => id)
                .ok (st.1 ++ [id ++ " = " ++ nd.name ++ "Block(" ++
                  String.intercalate ", " params ++ ")"], hs, he))
    (([], [], []))

/-- `pipeline` (src/main.py lines 20-125), after the graph has been parsed:
the full generated program, or the exception that aborted compilation. -/
def pipeline (graph : AGraph) (ref : List (String × Schema)) (logpath : String) :
    Except PyException (List String) := do
  let ordered ← topological_sort graph
  let bl ← buildBlockLines graph ref ordered
  let substackLines := bl.2.1.flatMap (fun id =>
    (get_substack_blocks id graph.edges).map
      (fun b => id ++ ".add_to_substack(" ++ b ++ ")"))
  let elseLines := bl.2.2.flatMap (fun id =>
    (get_substackelse_blocks id graph.edges).map
      (fun b => id ++ ".add_to_else_substack(" ++ b ++ ")"))
  let connectLines := (graph.edges.filter
    (fun e => e.outPortID = "THEN" ∧ e.inPortID = "EXEC")).map
      (fun e => e.outNodeID ++ ".connect_next(" ++ e.inNodeID ++ ")")
  let trigger := ordered.find? (fun id =>
    match assocLookup graph.nodes id with
    | some nd => nd.name = "WhenFlagClicked" ∨ nd.name = "WhenKeyPressed"
    | none => false)
  let scriptLines := match trigger with
    | some id => [("program.add_script(" ++ id ++ ")")]
    | none => []
  let execLines :=
    [("results, final_context = program.execute()"),
     ("with open('" ++ logpath ++ "', 'a') as f:"),
     ("    f.write(f'\x7bresults\x7d')"),
     ("with open('" ++ logpath ++ "', 'a') as f:"),
     ("    f.write(f'\x7bfinal_context\x7d')")]
  .ok (headerLines ++ bl.1 ++ substackLines ++ elseLines ++ connectLines ++
    scriptLines ++ execLines)

/-- The number of blocks in a substack. -/
def BlockList.length : BlockList → Nat
  | .nil => 0
  | .cons _ bs => 1 + bs.length

/-! ## Concrete inputs used to witness the theorems -/

/-- A two-node DAG: one control edge `a → b`. -/
def dagGraph : AGraph :=
  ⟨[("a", ⟨"WhenFlagClicked", none⟩), ("b", ⟨"Say", none⟩)],
   [⟨"a", "THEN", "b", "EXEC"⟩]⟩

/-- A two-node graph with a control cycle `a → b → a`. -/
def cycGraph : AGraph :=
  ⟨[("a", ⟨"WhenFlagClicked", none⟩), ("b", ⟨"Say", none⟩)],
   [⟨"a", "THEN", "b", "EXEC"⟩, ⟨"b", "THEN", "a", "EXEC"⟩]⟩

/-- A schema table under which the single wire of `bothValidGraph` resolves
as a valid source/target pair in both directions: port `p` is both an
output and an input of kind `A`, port `q` both an input and an output of
kind `B`. -/
def bothValidRef : List (String × Schema) :=
  [("A", ⟨[⟨"p"⟩], [], [⟨"p"⟩]⟩), ("B", ⟨[⟨"q"⟩], [], [⟨"q"⟩]⟩)]

/-- One wire between two non-Constant nodes `n1 : A` and `n2 : B`. -/
def bothValidGraph : List (String × BNode) :=
  [("n1", ⟨"A", none, [⟨"p", "n2"⟩]⟩), ("n2", ⟨"B", none, [⟨"q", "n1"⟩]⟩)]

/-- An adjacency-encoded graph whose single wire joins two Constant
nodes. -/
def twoConstGraph : List (String × BNode) :=
  [("c1", ⟨"Constant", some (.num (.finite 5)), [⟨"", "c2"⟩]⟩),
   ("c2", ⟨"Constant", some (.num (.finite 6)), [⟨"", "c1"⟩]⟩)]

/-- A one-script program: a bare `WhenFlagClicked` hat block. -/
def flagProgram : ScratchProgram := ⟨[.cons .whenFlagClicked .nil]⟩

/-! ## Dependency relation and acyclicity -/

/-- `edgeRel E u v`: the canonical edge list `E` has an edge from `u` to `v`. -/
def edgeRel (edges : List AEdge) (u v : String) : Prop :=
  ∃ e ∈ edges, e.outNodeID = u ∧ e.inNodeID = v

/-- `execEdgeRel E u v`: `E` has a control edge (`THEN → EXEC`) from `u` to `v`. -/
def execEdgeRel (edges : List AEdge) (u v : String) : Prop :=
  ∃ e ∈ edges, e.outPortID = "THEN" ∧ e.inPortID = "EXEC" ∧
    e.outNodeID = u ∧ e.inNodeID = v

/-- A graph is acyclic when no node reaches itself through a nonempty
edge path. -/
def Acyclic (edges : List AEdge) : Prop :=
  ¬ ∃ v, Relation.TransGen (edgeRel edges) v v

/-- `a` occurs strictly before `b` somewhere in the list `l`. -/
def Before (a b : String) (l : List String) : Prop :=
  ∃ i j, i < j ∧ l.get? i = some a ∧ l.get? j = some b

/-! ## Loop invariants of Kahn's algorithm -/

/-- The number of edges into `v` whose source has not yet been popped
into `res`. -/
def countRem (E : List AEdge) (res : List String) (v : String) : Nat :=
  (E.filter (fun e => e.inNodeID = v ∧ e.outNodeID ∉ res)).length


/-- The invariant carried through the `while queue:` loop of
`topological_sort`. -/
structure KInv (N : List String) (E : List AEdge) (q : List String) (d : String → Int)
    (res : List String) : Prop where
  nodup : (res ++ q).Nodup
  res_sub : ∀ v ∈ res, v ∈ N
  q_sub : ∀ v ∈ q, v ∈ N
  deg : ∀ v, d v = (countRem E res v : Int)
  seen_zero : ∀ v ∈ res ++ q, d v = 0
  unseen_pos : ∀ v ∈ N, v ∉ res ++ q → 0 < d v
  prec : ∀ e ∈ E, e.inNodeID ∈ res → Before e.outNodeID e.inNodeID res

/-- The fixed run of `kahnLoop` performed by `topological_sort g`. -/
def kahnRun (g : AGraph) : List String :=
  kahnLoop (adjOf g.edges) (g.keys.length + g.edges.length)
    (g.keys.filter (fun v => degOf g.edges v = 0)) (degOf g.edges) []



lemma processNbs_cons (nb : String) (rest : List String) (d : String → Int) (q : List String) :
    processNbs (nb :: rest) d q =
      processNbs rest (fun v => if v = nb then d nb - 1 else d v)
        (if d nb - 1 = 0 then q ++ [nb] else q) := by
  by_cases h : d nb - 1 = 0 <;> simp [processNbs, h]

lemma processNbs_fst (lst : List String) : ∀ (d : String → Int) (q : List String) (v : String),
    (processNbs lst d q).1 v = d v - (lst.countP (fun a => a = v) : Int) := by
  induction lst with
  | nil => intro d q v; simp [processNbs]
  | cons nb rest ih =>
      intro d q v
      rw [processNbs_cons, ih]
      by_cases hv : v = nb
      · subst hv; simp [List.countP_cons]; omega
      · simp only [if_neg hv, List.countP_cons]
        have : decide (nb = v) = false := by
          simp [decide_eq_false_iff_not]; exact fun h => hv h.symm
        simp [this]

lemma processNbs_snd_prefix (lst : List String) : ∀ (d : String → Int) (q : List String),
    ∃ t, (processNbs lst d q).2 = q ++ t := by
  induction lst with
  | nil => intro d q; exact ⟨[], by simp [processNbs]⟩
  | cons nb rest ih =>
      intro d q
      rw [processNbs_cons]
      by_cases h : d nb - 1 = 0
      · rw [if_pos h]
        obtain ⟨t, ht⟩ := ih _ (q ++ [nb])
        exact ⟨nb :: t, by rw [ht]; simp⟩
      · rw [if_neg h]; exact ih _ q

lemma processNbs_snd_sub (lst : List String) : ∀ (d : String → Int) (q : List String),
    ∀ v ∈ (processNbs lst d q).2, v ∈ q ∨ v ∈ lst := by
  induction lst with
  | nil => intro d q v hv; simp [processNbs] at hv; exact Or.inl hv
  | cons nb rest ih =>
      intro d q v hv
      rw [processNbs_cons] at hv
      rcases ih _ _ _ hv with h | h
      · by_cases hz : d nb - 1 = 0
        · rw [if_pos hz] at h
          rcases List.mem_append.1 h with h | h
          · exact Or.inl h
          · simp only [List.mem_singleton] at h; subst h; exact Or.inr (by simp)
        · rw [if_neg hz] at h; exact Or.inl h
      · exact Or.inr (List.mem_cons_of_mem _ h)

lemma processNbs_fst_mono (lst : List String) : ∀ (d : String → Int) (q : List String)
    (v : String), (processNbs lst d q).1 v ≤ d v := by
  intro d q v
  rw [processNbs_fst]
  omega

lemma processNbs_hit_zero (lst : List String) : ∀ (d : String → Int) (q : List String)
    (v : String), 0 < d v → (processNbs lst d q).1 v ≤ 0 → v ∈ (processNbs lst d q).2 := by
  induction lst with
  | nil => intro d q v hpos hle; simp [processNbs] at hle; omega
  | cons nb rest ih =>
      intro d q v hpos hle
      rw [processNbs_cons] at hle ⊢
      by_cases hv : v = nb
      · subst hv
        by_cases hz : d v - 1 = 0
        · rw [if_pos hz]
          obtain ⟨t, ht⟩ := processNbs_snd_prefix rest (fun w => if w = v then d v - 1 else d w) (q ++ [v])
          rw [ht]
          simp
        · rw [if_neg hz] at hle ⊢
          refine ih _ _ _ ?_ hle
          simp only [if_pos rfl]
          omega
      · by_cases hz : d nb - 1 = 0
        · rw [if_pos hz] at hle ⊢
          refine ih _ _ _ (by simpa [hv] using hpos) hle
        · rw [if_neg hz] at hle ⊢
          refine ih _ _ _ (by simpa [hv] using hpos) hle

lemma processNbs_nodup_le (lst : List String) : ∀ (d : String → Int) (q : List String),
    q.Nodup → (∀ v ∈ q, d v ≤ 0) →
    (processNbs lst d q).2.Nodup ∧ ∀ v ∈ (processNbs lst d q).2, (processNbs lst d q).1 v ≤ 0 := by
  induction lst with
  | nil => intro d q hnd hle; simpa [processNbs] using ⟨hnd, hle⟩
  | cons nb rest ih =>
      intro d q hnd hle
      rw [processNbs_cons]
      by_cases hz : d nb - 1 = 0
      · rw [if_pos hz]
        refine ih _ _ ?_ ?_
        · refine List.Nodup.append hnd (List.nodup_singleton nb) ?_
          intro a ha hb
          simp only [List.mem_singleton] at hb
          subst hb
          have := hle a ha
          omega
        · intro v hv
          rcases List.mem_append.1 hv with h | h
          · have := hle v h
            by_cases hvnb : v = nb <;> simp [hvnb] <;> omega
          · simp only [List.mem_singleton] at h
            subst h
            simp [hz]
      · rw [if_neg hz]
        refine ih _ _ hnd ?_
        intro v hv
        have := hle v hv
        by_cases hvnb : v = nb
        · subst hvnb; simp only [if_pos rfl]; omega
        · simp only [if_neg hvnb]; omega

lemma processNbs_new_pos (lst : List String) : ∀ (d : String → Int) (q : List String)
    (v : String), v ∈ (processNbs lst d q).2 → v ∉ q → 0 < d v := by
  induction lst with
  | nil => intro d q v hv hnq; simp [processNbs] at hv; exact absurd hv hnq
  | cons nb rest ih =>
      intro d q v hv hnq
      rw [processNbs_cons] at hv
      by_cases hz : d nb - 1 = 0
      · rw [if_pos hz] at hv
        by_cases hvq : v ∈ q ++ [nb]
        · rcases List.mem_append.1 hvq with h | h
          · exact absurd h hnq
          · simp only [List.mem_singleton] at h
            subst h
            omega
        · have := ih _ _ _ hv hvq
          by_cases hvnb : v = nb
          · subst hvnb; omega
          · simpa [hvnb] using this
      · rw [if_neg hz] at hv
        have := ih _ _ _ hv hnq
        by_cases hvnb : v = nb
        · subst hvnb; simp at this; omega
        · simpa [hvnb] using this

lemma countRem_nil (E : List AEdge) (v : String) :
    (countRem E [] v : Int) = degOf E v := by
  unfold countRem degOf
  norm_cast
  congr 1
  apply List.filter_congr
  intro e _
  simp

lemma adjOf_countP (E : List AEdge) (x v : String) :
    (adjOf E x).countP (fun a => a = v) =
      (E.filter (fun e => e.inNodeID = v ∧ e.outNodeID = x)).length := by
  unfold adjOf
  rw [List.countP_map, ← List.countP_eq_length_filter, List.countP_filter]
  apply List.countP_congr
  intro e _
  simp only [Function.comp, Bool.and_eq_true, decide_eq_true_eq]

lemma countRem_append (E : List AEdge) (res : List String) (x : String) (hx : x ∉ res)
    (v : String) :
    countRem E res v =
      countRem E (res ++ [x]) v +
        (E.filter (fun e => e.inNodeID = v ∧ e.outNodeID = x)).length := by
  unfold countRem
  rw [← List.countP_eq_length_filter, ← List.countP_eq_length_filter,
    ← List.countP_eq_length_filter]
  induction E with
  | nil => rfl
  | cons e E ih =>
      by_cases hi : e.inNodeID = v
      · by_cases ho : e.outNodeID = x
        · have hr : e.outNodeID ∉ res := ho ▸ hx
          rw [List.countP_cons_of_pos _ _ (by simp [hi, hr]),
            List.countP_cons_of_neg _ _ (by simp [hi, ho]),
            List.countP_cons_of_pos _ _ (by simp [hi, ho])]
          omega
        · by_cases hr : e.outNodeID ∈ res
          · rw [List.countP_cons_of_neg _ _ (by simp [hi, hr]),
              List.countP_cons_of_neg _ _ (by simp [hi, List.mem_append, hr]),
              List.countP_cons_of_neg _ _ (by simp [hi, ho])]
            omega
          · rw [List.countP_cons_of_pos _ _ (by simp [hi, hr]),
              List.countP_cons_of_pos _ _ (by simp [hi, List.mem_append, hr, ho]),
              List.countP_cons_of_neg _ _ (by simp [hi, ho])]
            omega
      · rw [List.countP_cons_of_neg _ _ (by simp [hi]),
          List.countP_cons_of_neg _ _ (by simp [hi]),
          List.countP_cons_of_neg _ _ (by simp [hi])]
        omega

lemma mem_adjOf (E : List AEdge) (x v : String) (h : v ∈ adjOf E x) :
    ∃ e ∈ E, e.outNodeID = x ∧ e.inNodeID = v := by
  unfold adjOf at h
  rcases List.mem_map.1 h with ⟨e, he, hev⟩
  rcases List.mem_filter.1 he with ⟨heE, hex⟩
  exact ⟨e, heE, by simpa using hex, hev⟩

lemma Before.append_right {a b : String} {l : List String} (t : List String)
    (h : Before a b l) : Before a b (l ++ t) := by
  rcases h with ⟨i, j, hij, ha, hb⟩
  have hi : i < l.length := (List.get?_eq_some.1 ha).1
  have hj : j < l.length := (List.get?_eq_some.1 hb).1
  exact ⟨i, j, hij, by rwa [List.get?_append hi], by rwa [List.get?_append hj]⟩


lemma length_filter_mem_split (S t : List String) :
    (S.filter (fun v => v ∉ t)).length + (S.filter (fun v => v ∈ t)).length = S.length := by
  induction S with
  | nil => rfl
  | cons a S ih =>
      by_cases h : a ∈ t
      · rw [List.filter_cons_of_neg (by simp [h]), List.filter_cons_of_pos (by simp [h])]
        simp only [List.length_cons]
        omega
      · rw [List.filter_cons_of_pos (by simp [h]), List.filter_cons_of_neg (by simp [h])]
        simp only [List.length_cons]
        omega

lemma kahn_step (N : List String) (E : List AEdge) (hN : N.Nodup)
    (hE : ∀ e ∈ E, e.outNodeID ∈ N ∧ e.inNodeID ∈ N)
    (x : String) (q : List String) (d : String → Int) (res : List String)
    (inv : KInv N E (x :: q) d res) :
    KInv N E (processNbs (adjOf E x) d q).2 (processNbs (adjOf E x) d q).1 (res ++ [x]) ∧
      (N.filter (fun v => v ∉ (res ++ [x]) ++ (processNbs (adjOf E x) d q).2)).length +
          (processNbs (adjOf E x) d q).2.length + 1 ≤
        (N.filter (fun v => v ∉ res ++ (x :: q))).length + (x :: q).length := by
  have hres_nodup : res.Nodup := inv.nodup.of_append_left
  have hxq_nodup : (x :: q).Nodup := inv.nodup.of_append_right
  have hq_nodup : q.Nodup := hxq_nodup.of_cons
  have hx_not_q : x ∉ q := (List.nodup_cons.1 hxq_nodup).1
  have hdisj : res.Disjoint (x :: q) := List.disjoint_of_nodup_append inv.nodup
  have hx_not_res : x ∉ res := fun h => hdisj h (List.mem_cons_self x q)
  have hdx : d x = 0 := inv.seen_zero x (List.mem_append_right _ (List.mem_cons_self x q))
  have hqz : ∀ v ∈ q, d v = 0 := fun v hv =>
    inv.seen_zero v (List.mem_append_right _ (List.mem_cons_of_mem _ hv))
  have hd'_eq : ∀ v, (processNbs (adjOf E x) d q).1 v = (countRem E (res ++ [x]) v : Int) := by
    intro v
    rw [processNbs_fst, adjOf_countP, inv.deg v, countRem_append E res x hx_not_res v]
    push_cast
    omega
  have hd'_nonneg : ∀ v, 0 ≤ (processNbs (adjOf E x) d q).1 v := by
    intro v
    rw [hd'_eq]
    exact_mod_cast Nat.zero_le _
  have hpn := processNbs_nodup_le (adjOf E x) d q hq_nodup (fun v hv => le_of_eq (hqz v hv))
  obtain ⟨t, ht⟩ := processNbs_snd_prefix (adjOf E x) d q
  have hq_sub_q' : ∀ v ∈ q, v ∈ (processNbs (adjOf E x) d q).2 := by
    intro v hv
    rw [ht]
    exact List.mem_append_left _ hv
  have hq'_sub : ∀ v ∈ (processNbs (adjOf E x) d q).2, v ∈ N := by
    intro v hv
    rcases processNbs_snd_sub (adjOf E x) d q v hv with h | h
    · exact inv.q_sub v (List.mem_cons_of_mem _ h)
    · rcases mem_adjOf E x v h with ⟨e, heE, _, hin⟩
      exact hin ▸ (hE e heE).2
  have hfresh : ∀ v ∈ (processNbs (adjOf E x) d q).2, v ∉ q → v ∉ res ++ (x :: q) := by
    intro v hv hnq hmem
    have hpos := processNbs_new_pos (adjOf E x) d q v hv hnq
    have := inv.seen_zero v hmem
    omega
  have hq'_disj : ∀ v ∈ (processNbs (adjOf E x) d q).2, v ∉ res ∧ v ≠ x := by
    intro v hv
    by_cases hnq : v ∈ q
    · refine ⟨fun hr => hdisj hr (List.mem_cons_of_mem _ hnq), fun hvx => hx_not_q (hvx ▸ hnq)⟩
    · have := hfresh v hv hnq
      simp only [List.mem_append, List.mem_cons, not_or] at this
      exact ⟨this.1, this.2.1⟩
  refine ⟨⟨?_, ?_, ?_, hd'_eq, ?_, ?_, ?_⟩, ?_⟩
  · -- nodup
    refine List.Nodup.append ?_ hpn.1 ?_
    · refine List.Nodup.append hres_nodup (List.nodup_singleton x) ?_
      intro a ha hb
      simp only [List.mem_singleton] at hb
      subst hb
      exact hx_not_res ha
    · intro a ha hb
      rcases List.mem_append.1 ha with h | h
      · exact (hq'_disj a hb).1 h
      · simp only [List.mem_singleton] at h
        subst h
        exact (hq'_disj a hb).2 rfl
  · -- res_sub
    intro v hv
    rcases List.mem_append.1 hv with h | h
    · exact inv.res_sub v h
    · simp only [List.mem_singleton] at h
      subst h
      exact inv.q_sub v (List.mem_cons_self v q)
  · -- q_sub
    exact hq'_sub
  · -- seen_zero
    intro v hv
    rcases List.mem_append.1 hv with h | h
    · have hz : d v = 0 := by
        rcases List.mem_append.1 h with h | h
        · exact inv.seen_zero v (List.mem_append_left _ h)
        · simp only [List.mem_singleton] at h
          subst h
          exact hdx
      have hmono := processNbs_fst_mono (adjOf E x) d q v
      have := hd'_nonneg v
      omega
    · have := hpn.2 v h
      have := hd'_nonneg v
      omega
  · -- unseen_pos
    intro v hvN hv
    simp only [List.mem_append, not_or] at hv
    have hnotq : v ∉ q := fun h => hv.2 (hq_sub_q' v h)
    have hvres : v ∉ res := hv.1.1
    have hvx : v ≠ x := by
      have := hv.1.2
      simpa using this
    have hold : 0 < d v := by
      refine inv.unseen_pos v hvN ?_
      simp only [List.mem_append, List.mem_cons, not_or]
      exact ⟨hvres, hvx, hnotq⟩
    by_contra hle
    push_neg at hle
    exact hv.2 (processNbs_hit_zero (adjOf E x) d q v hold hle)
  · -- prec
    intro e heE hin
    rcases List.mem_append.1 hin with h | h
    · exact (inv.prec e heE h).append_right [x]
    · simp only [List.mem_singleton] at h
      have hc : countRem E res x = 0 := by
        have := inv.deg x
        omega
      have hfe : List.filter (fun e => decide (e.inNodeID = x ∧ e.outNodeID ∉ res)) E = [] := by
        unfold countRem at hc
        exact List.length_eq_zero.1 hc
      have hnp := List.filter_eq_nil_iff.1 hfe e heE
      simp only [decide_eq_true_eq, not_and, not_not] at hnp
      have hout : e.outNodeID ∈ res := hnp h
      rcases List.mem_iff_get?.1 hout with ⟨i, hi⟩
      have hlen : i < res.length := (List.get?_eq_some.1 hi).1
      refine ⟨i, res.length, hlen, ?_, ?_⟩
      · rw [List.get?_append hlen]
        exact hi
      · rw [h]
        exact List.get?_concat_length res x
  · -- the loop measure strictly decreases
    rw [ht] at hpn hq'_sub hfresh hq'_disj ⊢
    have ht_nodup : t.Nodup := hpn.1.of_append_right
    have hqt_disj : q.Disjoint t := List.disjoint_of_nodup_append hpn.1
    have ht_le : t.length ≤
        (((N.filter (fun v => v ∉ res ++ (x :: q))).filter (fun v => v ∈ t)).length) := by
      refine (ht_nodup.subperm ?_).length_le
      intro v hv
      have hvq' : v ∈ q ++ t := List.mem_append_right _ hv
      have hvnotq : v ∉ q := fun hq => hqt_disj hq hv
      have hvN := hq'_sub v hvq'
      have hfr := hfresh v hvq' hvnotq
      refine List.mem_filter.2 ⟨List.mem_filter.2 ⟨hvN, by simpa using hfr⟩, by simp [hv]⟩
    have hS'_le : (N.filter (fun v => v ∉ (res ++ [x]) ++ (q ++ t))).length ≤
        ((N.filter (fun v => v ∉ res ++ (x :: q))).filter (fun v => v ∉ t)).length := by
      refine ((hN.filter _).subperm ?_).length_le
      intro v hv
      rcases List.mem_filter.1 hv with ⟨hvN, hvp⟩
      simp only [List.mem_append, List.mem_singleton, List.mem_cons, not_or,
        decide_eq_true_eq] at hvp
      refine List.mem_filter.2 ⟨List.mem_filter.2 ⟨hvN, ?_⟩, ?_⟩
      · simp only [List.mem_append, List.mem_cons, not_or, decide_eq_true_eq]
        tauto
      · simp only [decide_eq_true_eq]
        tauto
    have hsplit := length_filter_mem_split (N.filter (fun v => v ∉ res ++ (x :: q))) t
    simp only [List.length_append, List.length_cons]
    omega

lemma kahn_init (N : List String) (E : List AEdge) (hN : N.Nodup) :
    KInv N E (N.filter (fun v => degOf E v = 0)) (degOf E) [] := by
  refine ⟨?_, ?_, ?_, ?_, ?_, ?_, ?_⟩
  · simpa using hN.filter _
  · intro v hv
    exact absurd hv (List.not_mem_nil v)
  · intro v hv
    exact (List.mem_filter.1 hv).1
  · intro v
    exact (countRem_nil E v).symm
  · intro v hv
    simp only [List.nil_append] at hv
    have := (List.mem_filter.1 hv).2
    simpa using this
  · intro v hvN hv
    simp only [List.nil_append] at hv
    have hz : ¬ degOf E v = 0 := by
      intro h
      exact hv (List.mem_filter.2 ⟨hvN, by simp [h]⟩)
    have h0 : 0 ≤ degOf E v := by
      unfold degOf
      exact_mod_cast Nat.zero_le _
    omega
  · intro e he h
    exact absurd h (List.not_mem_nil _)

lemma kahnLoop_final (N : List String) (E : List AEdge) (hN : N.Nodup)
    (hE : ∀ e ∈ E, e.outNodeID ∈ N ∧ e.inNodeID ∈ N) :
    ∀ (fuel : Nat) (q : List String) (d : String → Int) (res : List String),
      KInv N E q d res →
      (N.filter (fun v => v ∉ res ++ q)).length + q.length ≤ fuel →
      ∃ d', KInv N E [] d' (kahnLoop (adjOf E) fuel q d res) := by
  intro fuel
  induction fuel with
  | zero =>
      intro q d res inv hle
      match q with
      | [] => exact ⟨d, inv⟩
      | x :: q => simp at hle
  | succ fuel ih =>
      intro q d res inv hle
      match q with
      | [] => exact ⟨d, inv⟩
      | x :: q =>
          have hstep := kahn_step N E hN hE x q d res inv
          refine ih _ _ _ hstep.1 ?_
          have hm := hstep.2
          simp only [List.length_cons] at hle hm ⊢
          omega

lemma Before.trans_of_nodup {a b c : String} {l : List String} (hnd : l.Nodup)
    (h1 : Before a b l) (h2 : Before b c l) : Before a c l := by
  rcases h1 with ⟨i, j, hij, ha, hb⟩
  rcases h2 with ⟨i', j', hij', hb', hc⟩
  have hj : j < l.length := (List.get?_eq_some.1 hb).1
  have : j = i' := List.get?_inj hj hnd (hb.trans hb'.symm)
  exact ⟨i, j', lt_trans hij (this ▸ hij'), ha, hc⟩

lemma Before.not_refl {a : String} {l : List String} (hnd : l.Nodup) : ¬ Before a a l := by
  rintro ⟨i, j, hij, ha, hb⟩
  have hi : i < l.length := (List.get?_eq_some.1 ha).1
  exact absurd (List.get?_inj hi hnd (ha.trans hb.symm)) (Nat.ne_of_lt hij)

lemma before_of_transGen {E : List AEdge} {res : List String} (hnd : res.Nodup)
    (hyp : ∀ e ∈ E, Before e.outNodeID e.inNodeID res) {u v : String}
    (h : Relation.TransGen (edgeRel E) u v) : Before u v res := by
  induction h with
  | single hrel =>
      rcases hrel with ⟨e, heE, hout, hin⟩
      exact hout ▸ hin ▸ hyp e heE
  | tail _ hrel ih =>
      rcases hrel with ⟨e, heE, hout, hin⟩
      exact ih.trans_of_nodup hnd (hout ▸ hin ▸ hyp e heE)

lemma topological_sort_eq (g : AGraph) :
    topological_sort g =
      if (kahnRun g).length ≠ g.keys.length
      then .error (.valueError ("Error: Graph is not a DAG"))
      else .ok (kahnRun g) := rfl

lemma kahnRun_inv (g : AGraph) (hN : g.keys.Nodup)
    (hE : ∀ e ∈ g.edges, e.outNodeID ∈ g.keys ∧ e.inNodeID ∈ g.keys) :
    ∃ d', KInv g.keys g.edges [] d' (kahnRun g) := by
  apply kahnLoop_final _ _ hN hE _ _ _ _ (kahn_init _ _ hN)
  have h1 : (g.keys.filter (fun v =>
      v ∉ [] ++ g.keys.filter (fun w => degOf g.edges w = 0))).length ≤
      (g.keys.filter (fun v =>
        v ∉ g.keys.filter (fun w => degOf g.edges w = 0))).length := by
    refine ((hN.filter _).subperm ?_).length_le
    intro v hv
    rcases List.mem_filter.1 hv with ⟨hvN, hvp⟩
    refine List.mem_filter.2 ⟨hvN, ?_⟩
    simpa using hvp
  have h2 : (g.keys.filter (fun w => degOf g.edges w = 0)).length ≤
      (g.keys.filter (fun v =>
        v ∈ g.keys.filter (fun w => degOf g.edges w = 0))).length := by
    refine ((hN.filter _).subperm ?_).length_le
    intro v hv
    exact List.mem_filter.2 ⟨(List.mem_filter.1 hv).1, by simp [hv]⟩
  have h3 := length_filter_mem_split g.keys (g.keys.filter (fun w => degOf g.edges w = 0))
  omega

lemma topological_sort_ok_spec (g : AGraph) (hN : g.keys.Nodup)
    (hE : ∀ e ∈ g.edges, e.outNodeID ∈ g.keys ∧ e.inNodeID ∈ g.keys)
    (res : List String) (h : topological_sort g = .ok res) :
    res.Perm g.keys ∧ ∀ e ∈ g.edges, Before e.outNodeID e.inNodeID res := by
  rw [topological_sort_eq] at h
  split at h
  · exact absurd h (by simp)
  · rename_i hlen
    push_neg at hlen
    have hres : res = kahnRun g := by
      injection h with h'
      exact h'.symm
    subst hres
    obtain ⟨d', inv⟩ := kahnRun_inv g hN hE
    have hnd : (kahnRun g).Nodup := by simpa using inv.nodup
    have hsub : ∀ v ∈ kahnRun g, v ∈ g.keys := inv.res_sub
    have hperm : (kahnRun g).Perm g.keys :=
      (hnd.subperm hsub).perm_of_length_le (le_of_eq hlen.symm)
    refine ⟨hperm, ?_⟩
    intro e heE
    exact inv.prec e heE (hperm.mem_iff.2 (hE e heE).2)

lemma topological_sort_ok_of_acyclic (g : AGraph) (hN : g.keys.Nodup)
    (hE : ∀ e ∈ g.edges, e.outNodeID ∈ g.keys ∧ e.inNodeID ∈ g.keys)
    (hA : Acyclic g.edges) :
    topological_sort g = .ok (kahnRun g) := by
  rw [topological_sort_eq]
  suffices h : (kahnRun g).length = g.keys.length by simp [h]
  obtain ⟨d', inv⟩ := kahnRun_inv g hN hE
  have hnd : (kahnRun g).Nodup := by simpa using inv.nodup
  have hsub : ∀ v ∈ kahnRun g, v ∈ g.keys := inv.res_sub
  have hcomplete : ∀ v ∈ g.keys, v ∈ kahnRun g := by
    by_contra hcon
    push_neg at hcon
    obtain ⟨v0, hv0k, hv0r⟩ := hcon
    have H : ∀ v, v ∈ g.keys → v ∉ kahnRun g →
        ∃ u, (u ∈ g.keys ∧ u ∉ kahnRun g) ∧ edgeRel g.edges u v := by
      intro v hvk hvr
      have hpos : 0 < d' v := inv.unseen_pos v hvk (by simpa using hvr)
      have hd : d' v = (countRem g.edges (kahnRun g) v : Int) := inv.deg v
      have hcount : 0 < countRem g.edges (kahnRun g) v := by
        rw [hd] at hpos
        exact_mod_cast hpos
      unfold countRem at hcount
      obtain ⟨e, he⟩ := List.exists_mem_of_length_pos hcount
      rcases List.mem_filter.1 he with ⟨heE, hep⟩
      simp only [decide_eq_true_eq] at hep
      exact ⟨e.outNodeID, ⟨(hE e heE).1, hep.2⟩, ⟨e, heE, rfl, hep.1⟩⟩
    let T := {v : String // v ∈ g.keys ∧ v ∉ kahnRun g}
    let step : T → T := fun p =>
      ⟨Classical.choose (H p.1 p.2.1 p.2.2), (Classical.choose_spec (H p.1 p.2.1 p.2.2)).1⟩
    let f : ℕ → T := fun n => Nat.rec ⟨v0, hv0k, hv0r⟩ (fun _ p => step p) n
    have hrel : ∀ n : ℕ, edgeRel g.edges (f (n + 1)).1 (f n).1 := fun n =>
      (Classical.choose_spec (H (f n).1 (f n).2.1 (f n).2.2)).2
    have htrans : ∀ (k m : ℕ),
        Relation.TransGen (edgeRel g.edges) (f (k + m + 1)).1 (f k).1 := by
      intro k m
      induction m with
      | zero => exact Relation.TransGen.single (hrel k)
      | succ m ih => exact Relation.TransGen.head (hrel (k + m + 1)) ih
    have key : ∀ (a b : ℕ), a < b → (f a).1 = (f b).1 → False := by
      intro a b hab he
      have hj : a + (b - a - 1) + 1 = b := by omega
      have ht := htrans a (b - a - 1)
      rw [hj] at ht
      rw [← he] at ht
      exact hA ⟨(f a).1, ht⟩
    have hcard : g.keys.toFinset.card <
        (Finset.univ : Finset (Fin (g.keys.length + 1))).card := by
      rw [Finset.card_univ, Fintype.card_fin]
      exact Nat.lt_succ_of_le g.keys.toFinset_card_le
    have hmaps : ∀ i : Fin (g.keys.length + 1), i ∈ Finset.univ →
        (f i.1).1 ∈ g.keys.toFinset := fun i _ => List.mem_toFinset.2 (f i.1).2.1
    obtain ⟨i, _, j, _, hij, heq⟩ :=
      Finset.exists_ne_map_eq_of_card_lt_of_maps_to hcard hmaps
    rcases Nat.lt_or_ge i.1 j.1 with hlt | hge
    · exact key i.1 j.1 hlt heq
    · have hlt : j.1 < i.1 := lt_of_le_of_ne hge (fun h => hij (Fin.ext h.symm))
      exact key j.1 i.1 hlt heq.symm
  exact le_antisymm ((hnd.subperm hsub).length_le) ((hN.subperm hcomplete).length_le)

lemma topological_sort_error_of_cycle (g : AGraph) (hN : g.keys.Nodup)
    (hE : ∀ e ∈ g.edges, e.outNodeID ∈ g.keys ∧ e.inNodeID ∈ g.keys)
    (hc : ∃ v, Relation.TransGen (edgeRel g.edges) v v) :
    topological_sort g = .error (.valueError ("Error: Graph is not a DAG")) := by
  have hne : (kahnRun g).length ≠ g.keys.length := by
    intro hlen
    have hok : topological_sort g = .ok (kahnRun g) := by
      rw [topological_sort_eq, if_neg (by simp [hlen])]
    obtain ⟨hperm, hbef⟩ := topological_sort_ok_spec g hN hE _ hok
    obtain ⟨v, hv⟩ := hc
    have hnd : (kahnRun g).Nodup := hperm.nodup_iff.2 hN
    exact Before.not_refl hnd (before_of_transGen hnd hbef hv)
  rw [topological_sort_eq, if_pos hne]

/-! ## Generic `Except` bind reductions -/

lemma exceptBind_ok {ε α β : Type} (a : α) (f : α → Except ε β) :
    (Except.ok a >>= f) = f a := rfl

lemma exceptBind_error {ε α β : Type} (e : ε) (f : α → Except ε β) :
    ((Except.error e : Except ε α) >>= f) = .error e := rfl

/-! ## Claims about the interpreter -/

/-- C3 (counterexample): executing an `If` block whose condition evaluates
to false raises an error instead of producing a trace — the returned
message references the undefined local `results`, so the script does not
run to completion. -/
theorem ifBlock_false_condition_raises :
    (ScratchBlock.ifBlock .mouseDown .nil).execute defaultContext =
      .error (.nameError ("results")) := rfl

/-- C3 (amended): execution is not error-free.  An `If` block whose
condition evaluates to false raises `UnboundLocalError` (its
"condition not met" message references the undefined variable `results`),
aborting the script; when the condition evaluates to true the block runs
its substack once and returns normally. -/
theorem ifBlock_execute_spec (cond : ScratchBlock) (body : BlockList) (ctx c : Ctx) (v : SVal)
    (h : cond.execute ctx = .ok (v, c)) :
    (pyTruthy v = false →
      (ScratchBlock.ifBlock cond body).execute ctx = .error (.nameError ("results"))) ∧
    (pyTruthy v = true →
      (ScratchBlock.ifBlock cond body).execute ctx =
        (execList body c).map
          (fun p => (.str ("If condition met: " ++ pyReprList p.1), p.2))) := by
  have hunfold : (ScratchBlock.ifBlock cond body).execute ctx =
      (cond.execute ctx >>= fun d =>
        if pyTruthy d.1 = true then
          execList body d.2 >>= fun p =>
            Except.ok (.str ("If condition met: " ++ pyReprList p.1), p.2)
        else .error (.nameError ("results"))) := rfl
  rw [hunfold, h]
  constructor
  · intro hf
    show (if pyTruthy v = true then _ else _) = _
    rw [hf]
    simp
  · intro ht
    show (if pyTruthy v = true then _ else _) = _
    rw [ht]
    cases hres : execList body c with
    | error e => rfl
    | ok p => rfl

/-- C3 (witness): the amended claim at concrete inputs: a false `mouseDown`
condition over a nonempty body raises; a true `2 > 1` condition returns the
single-pass result. -/
theorem ifBlock_execute_spec_witness :
    ((ScratchBlock.ifBlock .mouseDown (.cons .whenFlagClicked .nil)).execute defaultContext
      = .error (.nameError ("results"))) ∧
    ((ScratchBlock.ifBlock
        (.greaterThan (.lit (.num (.finite 2))) (.lit (.num (.finite 1)))) .nil).execute
          defaultContext
      = (execList .nil defaultContext).map
          (fun p => (.str ("If condition met: " ++ pyReprList p.1), p.2))) :=
  ⟨(ifBlock_execute_spec .mouseDown (.cons .whenFlagClicked .nil) defaultContext
      defaultContext (.bool false) rfl).1 rfl,
   (ifBlock_execute_spec (.greaterThan (.lit (.num (.finite 2))) (.lit (.num (.finite 1))))
      .nil defaultContext defaultContext (.bool true) rfl).2 rfl⟩

/-- C7: division by zero yields `+inf` (the dividend is not even coerced),
modulo by zero yields `NaN`, and `10 / 2 = 5.0`; at the block level and for
every pair of operand values. -/
theorem divide_mod_zero_spec :
    divideVals (.num (.finite 10)) (.num (.finite 0)) = .ok (.num .posInf) ∧
    modVals (.num (.finite 10)) (.num (.finite 0)) = .ok (.num .nan) ∧
    divideVals (.num (.finite 10)) (.num (.finite 2)) = .ok (.num (.finite 5)) ∧
    (∀ ctx : Ctx,
      (ScratchBlock.divide (.lit (.num (.finite 10))) (.lit (.num (.finite 0)))).execute ctx
        = .ok (.num .posInf, ctx) ∧
      (ScratchBlock.modBlock (.lit (.num (.finite 10))) (.lit (.num (.finite 0)))).execute ctx
        = .ok (.num .nan, ctx) ∧
      (ScratchBlock.divide (.lit (.num (.finite 10))) (.lit (.num (.finite 2)))).execute ctx
        = .ok (.num (.finite 5), ctx)) ∧
    (∀ (v1 v2 : SVal) (f2 : PyNum), toNum v2 = .ok f2 → f2.isZero = true →
      divideVals v1 v2 = .ok (.num .posInf) ∧ modVals v1 v2 = .ok (.num .nan)) := by
  have h52 : divideVals (.num (.finite 10)) (.num (.finite 2)) = .ok (.num (.finite 5)) := by
    norm_num [divideVals, toNum, exceptBind_ok, PyNum.isZero, PyNum.div]
  refine ⟨rfl, rfl, h52, fun ctx => ⟨rfl, rfl, ?_⟩, ?_⟩
  · have hu : (ScratchBlock.divide (.lit (.num (.finite 10)))
        (.lit (.num (.finite 2)))).execute ctx =
        (divideVals (.num (.finite 10)) (.num (.finite 2)) >>= fun r => .ok (r, ctx)) := rfl
    rw [hu, h52, exceptBind_ok]
  intro v1 v2 f2 h hz
  have hd : divideVals v1 v2 =
      (toNum v2 >>= fun f2 =>
        if f2.isZero then .ok (.num .posInf)
        else toNum v1 >>= fun f1 => .ok (.num (f1.div f2))) := rfl
  have hm : modVals v1 v2 =
      (toNum v2 >>= fun f2 =>
        if f2.isZero then .ok (.num .nan)
        else toNum v1 >>= fun f1 => .ok (.num (f1.mod f2))) := rfl
  rw [hd, hm, h, exceptBind_ok, exceptBind_ok]
  constructor
  · show (if f2.isZero then _ else _) = _
    rw [hz]
    rfl
  · show (if f2.isZero then _ else _) = _
    rw [hz]
    rfl

/-- C7 (witness): the universally quantified zero-divisor clause applied at
the string operand `"3"` and the numeric divisor `0`. -/
theorem divide_mod_zero_spec_witness :
    divideVals (.str ("3")) (.num (.finite 0)) = .ok (.num .posInf) ∧
    modVals (.str ("3")) (.num (.finite 0)) = .ok (.num .nan) :=
  divide_mod_zero_spec.2.2.2.2 (.str ("3")) (.num (.finite 0)) (.finite 0) rfl rfl

lemma execList_length : ∀ (body : BlockList) (ctx : Ctx) (rs : List SVal) (c2 : Ctx),
    execList body ctx = .ok (rs, c2) → rs.length = body.length
  | .nil, ctx, rs, c2, h => by
      have h' : (Except.ok (([] : List SVal), ctx) : Except PyException (List SVal × Ctx))
          = .ok (rs, c2) := h
      injection h' with h''
      injection h'' with ha hb
      rw [← ha]
      rfl
  | .cons b bs, ctx, rs, c2, h => by
      have hu : execList (.cons b bs) ctx =
          (b.execute ctx >>= fun rc =>
            execList bs rc.2 >>= fun p => .ok (rc.1 :: p.1, p.2)) := rfl
      rw [hu] at h
      cases hb : b.execute ctx with
      | error e =>
          rw [hb, exceptBind_error] at h
          exact Except.noConfusion h
      | ok rc =>
          rw [hb, exceptBind_ok] at h
          cases hrest : execList bs rc.2 with
          | error e =>
              rw [hrest, exceptBind_error] at h
              exact Except.noConfusion h
          | ok p =>
              rw [hrest, exceptBind_ok] at h
              injection h with h'
              have h1 : rc.1 :: p.1 = rs := congrArg Prod.fst h'
              have hlen := execList_length bs rc.2 p.1 p.2 hrest
              rw [← h1]
              simp only [List.length_cons, BlockList.length, hlen]
              omega

/-- C8: a `repeat N` block evaluates its count and then executes its body
substack exactly once — a single linear pass (`execList`), one result per
body block, with a final context independent of the count — and a `forever`
block is the same single pass. -/
theorem repeat_forever_single_pass (tv w : SVal) (body : BlockList) (ctx : Ctx) :
    (ScratchBlock.repeatBlock (.lit tv) body).execute ctx =
      (execList body ctx).map
        (fun p => (.str ("Repeated " ++ pyStr tv ++ " times: " ++ pyReprList p.1), p.2)) ∧
    (ScratchBlock.forever body).execute ctx =
      (execList body ctx).map
        (fun p => (.str ("Forever loop: " ++ pyReprList p.1), p.2)) ∧
    ((ScratchBlock.repeatBlock (.lit tv) body).execute ctx).map Prod.snd =
      ((ScratchBlock.repeatBlock (.lit w) body).execute ctx).map Prod.snd ∧
    (∀ rs c2, execList body ctx = .ok (rs, c2) → rs.length = body.length) := by
  have hrep : ∀ u : SVal, (ScratchBlock.repeatBlock (.lit u) body).execute ctx =
      (execList body ctx).map
        (fun p => (.str ("Repeated " ++ pyStr u ++ " times: " ++ pyReprList p.1), p.2)) := by
    intro u
    have hu : (ScratchBlock.repeatBlock (.lit u) body).execute ctx =
        (execList body ctx >>= fun p =>
          .ok (.str ("Repeated " ++ pyStr u ++ " times: " ++ pyReprList p.1), p.2)) := rfl
    rw [hu]
    cases hres : execList body ctx with
    | error e => rfl
    | ok p => rfl
  refine ⟨hrep tv, ?_, ?_, fun rs c2 h => execList_length body ctx rs c2 h⟩
  · have hu : (ScratchBlock.forever body).execute ctx =
        (execList body ctx >>= fun p =>
          .ok (.str ("Forever loop: " ++ pyReprList p.1), p.2)) := rfl
    rw [hu]
    cases hres : execList body ctx with
    | error e => rfl
    | ok p => rfl
  · rw [hrep tv, hrep w]
    cases hres : execList body ctx with
    | error e => rfl
    | ok p => rfl

/-- C8 (witness): the single-pass behaviour at a concrete repeat block:
count 7 over a one-block body produces one result and the same context as
count 1. -/
theorem repeat_forever_single_pass_witness :
    ((ScratchBlock.repeatBlock (.lit (.num (.finite 7)))
        (.cons .whenFlagClicked .nil)).execute defaultContext).map Prod.snd =
      ((ScratchBlock.repeatBlock (.lit (.num (.finite 1)))
        (.cons .whenFlagClicked .nil)).execute defaultContext).map Prod.snd ∧
    ([SVal.str ("Program started")] : List SVal).length =
      BlockList.length (.cons .whenFlagClicked .nil) :=
  ⟨(repeat_forever_single_pass (.num (.finite 7)) (.num (.finite 1))
      (.cons .whenFlagClicked .nil) defaultContext).2.2.1,
   (repeat_forever_single_pass (.num (.finite 7)) (.num (.finite 1))
      (.cons .whenFlagClicked .nil) defaultContext).2.2.2
      [SVal.str ("Program started")] defaultContext rfl⟩

/-- C9: the greater-than comparison coerces both operands to numbers first
and compares numerically; only when a coercion raises `ValueError` does it
fall back to lexicographic string comparison.  `"10" > "9"` is numeric
(true) and `"b" > "a"` is the string fallback (true). -/
theorem greaterThan_coercion_spec :
    (∀ (v1 v2 : SVal) (f1 f2 : PyNum), toNum v1 = .ok f1 → toNum v2 = .ok f2 →
      gtVals v1 v2 = .bool (f1.gt f2)) ∧
    (∀ v1 v2 : SVal, (∃ e, toNum v1 = .error e) ∨ (∃ e, toNum v2 = .error e) →
      gtVals v1 v2 = .bool (strGt (pyStr v1) (pyStr v2))) ∧
    gtVals (.str ("10")) (.str ("9")) = .bool true ∧
    gtVals (.str ("b")) (.str ("a")) = .bool true ∧
    (∀ ctx : Ctx,
      (ScratchBlock.greaterThan (.lit (.str ("10"))) (.lit (.str ("9")))).execute ctx
        = .ok (.bool true, ctx) ∧
      (ScratchBlock.greaterThan (.lit (.str ("b"))) (.lit (.str ("a")))).execute ctx
        = .ok (.bool true, ctx)) := by
  have h1 : ∀ (v1 v2 : SVal) (f1 f2 : PyNum), toNum v1 = .ok f1 → toNum v2 = .ok f2 →
      gtVals v1 v2 = .bool (f1.gt f2) := by
    intro v1 v2 f1 f2 h1 h2
    unfold gtVals
    rw [h1, h2]
  have h2 : ∀ v1 v2 : SVal, (∃ e, toNum v1 = .error e) ∨ (∃ e, toNum v2 = .error e) →
      gtVals v1 v2 = .bool (strGt (pyStr v1) (pyStr v2)) := by
    intro v1 v2 h
    rcases h with ⟨e, he⟩ | ⟨e, he⟩
    · unfold gtVals
      rw [he]
    · cases h1 : toNum v1 with
      | error e1 =>
          unfold gtVals
          rw [h1]
      | ok f1 =>
          unfold gtVals
          rw [h1, he]
  have hgt109 : gtVals (.str ("10")) (.str ("9")) = .bool true := by
    have : gtVals (.str ("10")) (.str ("9")) =
        .bool (PyNum.gt (.finite 10) (.finite 9)) :=
      h1 _ _ _ _ (by decide)
        (by decide)
    rw [this]
    norm_num [PyNum.gt]
  have hgtba : gtVals (.str ("b")) (.str ("a")) = .bool true := by
    have : gtVals (.str ("b")) (.str ("a")) =
        .bool (strGt (pyStr (.str ("b"))) (pyStr (.str ("a")))) :=
      h2 _ _ (Or.inl ⟨.valueError ("could not convert string to float: 'b'"), by decide⟩)
    rw [this]
    decide
  refine ⟨h1, h2, hgt109, hgtba, fun ctx => ⟨?_, ?_⟩⟩
  · have hu : (ScratchBlock.greaterThan (.lit (.str ("10"))) (.lit (.str ("9")))).execute ctx
        = .ok (gtVals (.str ("10")) (.str ("9")), ctx) := rfl
    rw [hu, hgt109]
  · have hu : (ScratchBlock.greaterThan (.lit (.str ("b"))) (.lit (.str ("a")))).execute ctx
        = .ok (gtVals (.str ("b")) (.str ("a")), ctx) := rfl
    rw [hu, hgtba]

/-- C9 (witness): the two coercion clauses at concrete operands: boolean
`true` coerces to `1.0` and compares numerically with `"25"`; `"b"` fails
coercion and falls back to string comparison with `"a"`. -/
theorem greaterThan_coercion_spec_witness :
    gtVals (.bool true) (.str ("25")) = .bool (PyNum.gt (.finite 1) (.finite 25)) ∧
    gtVals (.str ("b")) (.str ("a")) =
      .bool (strGt (pyStr (.str ("b"))) (pyStr (.str ("a")))) :=
  ⟨greaterThan_coercion_spec.1 (.bool true) (.str ("25")) (.finite 1) (.finite 25)
      rfl (by decide),
   greaterThan_coercion_spec.2.1 (.str ("b")) (.str ("a"))
      (Or.inl ⟨.valueError ("could not convert string to float: 'b'"), by decide⟩)⟩

/-- C10: `ScratchProgram.execute` with no context argument starts from
exactly the default context `{x: 0, y: 0, direction: 0, size: 100}` (and
nothing else — no variables, no key/mouse flags), and returns the result of
threading that very context through all scripts in order. -/
theorem scratchProgram_execute_default (p : ScratchProgram) :
    p.execute none = p.execute (some defaultContext) ∧
    p.execute none = runScripts p.scripts defaultContext ∧
    defaultContext = [("x", .num (.finite 0)), ("y", .num (.finite 0)),
      ("direction", .num (.finite 0)), ("size", .num (.finite 100))] ∧
    (∀ k v, (k, v) ∈ defaultContext →
      k = "x" ∨ k = "y" ∨ k = "direction" ∨ k = "size") := by
  refine ⟨rfl, rfl, rfl, ?_⟩
  intro k v h
  simp only [defaultContext, List.mem_cons, List.not_mem_nil, or_false, Prod.mk.injEq] at h
  rcases h with ⟨h, _⟩ | ⟨h, _⟩ | ⟨h, _⟩ | ⟨h, _⟩ <;> simp [h]

/-- C10 (witness): the default-context behaviour at a concrete one-script
program, and the key clause at the concrete entry `("x", 0)`. -/
theorem scratchProgram_execute_default_witness :
    flagProgram.execute none = flagProgram.execute (some defaultContext) ∧
    ("x" = "x" ∨ "x" = "y" ∨ "x" = "direction" ∨ "x" = "size") :=
  ⟨(scratchProgram_execute_default flagProgram).1,
   (scratchProgram_execute_default flagProgram).2.2.2 "x" (.num (.finite 0)) (by decide)⟩

/-! ## Claims about the Structural Sequencer and the pipeline -/

/-- C1: for every acyclic canonical graph (well-formed: distinct node ids,
edge endpoints among the nodes), `topological_sort` succeeds and returns a
permutation of all node ids in which every edge's source appears strictly
before its target. -/
theorem topological_sort_correct_on_acyclic (g : AGraph)
    (hN : g.keys.Nodup)
    (hE : ∀ e ∈ g.edges, e.outNodeID ∈ g.keys ∧ e.inNodeID ∈ g.keys)
    (hA : Acyclic g.edges) :
    ∃ res, topological_sort g = .ok res ∧ res.Perm g.keys ∧
      ∀ e ∈ g.edges, Before e.outNodeID e.inNodeID res := by
  have hok := topological_sort_ok_of_acyclic g hN hE hA
  have hspec := topological_sort_ok_spec g hN hE _ hok
  exact ⟨kahnRun g, hok, hspec.1, hspec.2⟩

lemma dagGraph_acyclic : Acyclic dagGraph.edges := by
  have hstep : ∀ u w, edgeRel dagGraph.edges u w → u = "a" ∧ w = "b" := by
    rintro u w ⟨e, he, hu, hw⟩
    simp only [dagGraph, List.mem_singleton] at he
    subst he
    exact ⟨hu.symm, hw.symm⟩
  rintro ⟨v, hv⟩
  have hall : ∀ u w, Relation.TransGen (edgeRel dagGraph.edges) u w → u = "a" ∧ w = "b" := by
    intro u w h
    induction h with
    | single h => exact hstep _ _ h
    | tail _ hl ih => exact ⟨ih.1, (hstep _ _ hl).2⟩
  have h := hall v v hv
  exact absurd (h.1.symm.trans h.2) (by decide)

/-- C1 (witness): the theorem applied to a concrete two-node DAG. -/
theorem topological_sort_correct_on_acyclic_witness :
    dagGraph.keys.Nodup ∧ Acyclic dagGraph.edges ∧
    (∃ res, topological_sort dagGraph = .ok res ∧ res.Perm dagGraph.keys ∧
      ∀ e ∈ dagGraph.edges, Before e.outNodeID e.inNodeID res) := by
  have hN : dagGraph.keys.Nodup := by decide
  have hE : ∀ e ∈ dagGraph.edges, e.outNodeID ∈ dagGraph.keys ∧ e.inNodeID ∈ dagGraph.keys := by
    decide
  exact ⟨hN, dagGraph_acyclic,
    topological_sort_correct_on_acyclic dagGraph hN hE dagGraph_acyclic⟩

/-- C2: for every canonical graph containing a cycle (through any edges,
data or control), `topological_sort` raises the non-DAG `ValueError`
(the spec's `CyclicGraphError`), and the whole `pipeline` compilation
fails with that same exception: the error propagates before a single
block-construction line is generated, so no partial program exists. -/
theorem pipeline_fails_on_cycle (g : AGraph) (ref : List (String × Schema))
    (logpath : String) (hN : g.keys.Nodup)
    (hE : ∀ e ∈ g.edges, e.outNodeID ∈ g.keys ∧ e.inNodeID ∈ g.keys)
    (hc : ∃ v, Relation.TransGen (edgeRel g.edges) v v) :
    topological_sort g = .error (.valueError ("Error: Graph is not a DAG")) ∧
    pipeline g ref logpath = .error (.valueError ("Error: Graph is not a DAG")) := by
  have ht := topological_sort_error_of_cycle g hN hE hc
  refine ⟨ht, ?_⟩
  unfold pipeline
  rw [ht]
  rfl

/-- C2 (witness): the theorem applied to a concrete two-node cyclic graph. -/
theorem pipeline_fails_on_cycle_witness :
    cycGraph.keys.Nodup ∧
    Relation.TransGen (edgeRel cycGraph.edges) "a" "a" ∧
    pipeline cycGraph [] "log.txt" = .error (.valueError ("Error: Graph is not a DAG")) := by
  have hN : cycGraph.keys.Nodup := by decide
  have hE : ∀ e ∈ cycGraph.edges, e.outNodeID ∈ cycGraph.keys ∧ e.inNodeID ∈ cycGraph.keys := by
    decide
  have hab : edgeRel cycGraph.edges "a" "b" :=
    ⟨⟨"a", "THEN", "b", "EXEC"⟩, by decide, rfl, rfl⟩
  have hba : edgeRel cycGraph.edges "b" "a" :=
    ⟨⟨"b", "THEN", "a", "EXEC"⟩, by decide, rfl, rfl⟩
  have hcyc : Relation.TransGen (edgeRel cycGraph.edges) "a" "a" :=
    Relation.TransGen.tail (Relation.TransGen.single hab) hba
  exact ⟨hN, hcyc,
    (pipeline_fails_on_cycle cycGraph [] "log.txt" hN hE ⟨"a", hcyc⟩).2⟩

lemma chainLoop_nodup (m : String → Option String) : ∀ (fuel : Nat) (chain : List String)
    (cur : String), chain.Nodup → (chainLoop m fuel chain cur).Nodup := by
  intro fuel
  induction fuel with
  | zero => intro chain cur h; exact h
  | succ fuel ih =>
      intro chain cur h
      simp only [chainLoop]
      by_cases hcur : cur ∈ chain
      · rw [if_pos hcur]
        exact h
      · rw [if_neg hcur]
        have happ : (chain ++ [cur]).Nodup := by
          refine List.Nodup.append h (List.nodup_singleton _) ?_
          intro a ha hb
          simp only [List.mem_singleton] at hb
          subst hb
          exact hcur ha
        cases hm : m cur with
        | none => exact happ
        | some nxt => exact ih _ _ happ

/-- C6 (counterexample): on a canonical edge list whose next-chain from
`"a"` is the cycle `a → b → a`, chain reconstruction does not fail: it
silently truncates the cycle at the first revisited node and returns
`["a", "b"]`, and the pipeline's eventual failure is the plain non-DAG
`ValueError` of `topological_sort`, not a control-cycle error. -/
theorem get_execution_chain_truncates_cycle :
    get_execution_chain "a" cycGraph.edges = ["a", "b"] ∧
    pipeline cycGraph [] "log.txt" = .error (.valueError ("Error: Graph is not a DAG")) := by
  constructor
  · decide
  · decide

/-- C6 (amended): `get_execution_chain` never raises: on every edge list it
returns a duplicate-free chain, stopping silently at the first revisited
node; compilation of a graph whose control edges (`THEN → EXEC`) contain a
cycle does fail before any evaluation, but through `topological_sort`'s
non-DAG `ValueError` (there is no dedicated control-cycle error). -/
theorem control_cycle_spec :
    (∀ (id : String) (edges : List AEdge), (get_execution_chain id edges).Nodup) ∧
    (∀ (g : AGraph), g.keys.Nodup →
      (∀ e ∈ g.edges, e.outNodeID ∈ g.keys ∧ e.inNodeID ∈ g.keys) →
      (∃ v, Relation.TransGen (execEdgeRel g.edges) v v) →
      topological_sort g = .error (.valueError ("Error: Graph is not a DAG"))) := by
  constructor
  · intro id edges
    exact chainLoop_nodup _ _ _ _ List.nodup_nil
  · rintro g hN hE ⟨v, hv⟩
    refine topological_sort_error_of_cycle g hN hE ⟨v, ?_⟩
    refine Relation.TransGen.mono ?_ hv
    rintro a b ⟨e, he, _, _, hu, hw⟩
    exact ⟨e, he, hu, hw⟩

/-- C6 (witness): the amended claim at the concrete control cycle
`a → b → a`. -/
theorem control_cycle_spec_witness :
    (get_execution_chain "a" cycGraph.edges).Nodup ∧
    topological_sort cycGraph = .error (.valueError ("Error: Graph is not a DAG")) := by
  have hN : cycGraph.keys.Nodup := by decide
  have hE : ∀ e ∈ cycGraph.edges, e.outNodeID ∈ cycGraph.keys ∧ e.inNodeID ∈ cycGraph.keys := by
    decide
  have hab : execEdgeRel cycGraph.edges "a" "b" :=
    ⟨⟨"a", "THEN", "b", "EXEC"⟩, by decide, rfl, rfl, rfl, rfl⟩
  have hba : execEdgeRel cycGraph.edges "b" "a" :=
    ⟨⟨"b", "THEN", "a", "EXEC"⟩, by decide, rfl, rfl, rfl, rfl⟩
  exact ⟨control_cycle_spec.1 "a" cycGraph.edges,
    control_cycle_spec.2 cycGraph hN hE
      ⟨"a", Relation.TransGen.tail (Relation.TransGen.single hab) hba⟩⟩

/-! ## Claims about the Graph Normalizer -/

/-- C4 (counterexample): a wire between two non-Constant endpoints for
which BOTH source/target assignments are valid under the schemas — and
`convert_repr` does not fail: it silently emits the first orientation. -/
theorem convert_repr_both_valid_no_error :
    dirValid1 bothValidRef "A" "p" "B" "q" = true ∧
    dirValid2 bothValidRef "A" "p" "B" "q" = true ∧
    convert_repr bothValidGraph bothValidRef =
      .ok ⟨[("n1", ⟨"A", none⟩), ("n2", ⟨"B", none⟩)],
        [⟨"n1", "p", "n2", "q"⟩]⟩ := by
  refine ⟨by decide, by decide, by decide⟩

lemma resolveDirection_eq (ref : List (String × Schema))
    (node_name port_id other_node_name other_port_id node_id other_node_id : String) :
    resolveDirection ref node_name port_id other_node_name other_port_id
        node_id other_node_id =
      (if dirValid1 ref node_name port_id other_node_name other_port_id then
        .ok (node_id, port_id, other_node_id, other_port_id)
      else if dirValid2 ref node_name port_id other_node_name other_port_id then
        .ok (other_node_id, other_port_id, node_id, port_id)
      else
        .error (.valueError ("Could not determine edge direction between " ++ node_name ++
          "." ++ (if port_id ≠ "" then port_id else "undefined") ++ " and " ++
          other_node_name ++ "." ++
          (if other_port_id ≠ "" then other_port_id else "undefined")))) := rfl

/-- C4 (amended): the direction resolution for a wire between two
non-Constant endpoints fails (with the "Could not determine edge
direction" `ValueError`) exactly when NEITHER assignment is valid under
the schemas; when the enumerated-node-as-source assignment is valid it is
used, silently, even if the reverse assignment is also valid; the reverse
assignment is used only when the first is invalid. -/
theorem resolveDirection_spec (ref : List (String × Schema))
    (node_name port_id other_node_name other_port_id node_id other_node_id : String) :
    (dirValid1 ref node_name port_id other_node_name other_port_id = true →
      resolveDirection ref node_name port_id other_node_name other_port_id
          node_id other_node_id
        = .ok (node_id, port_id, other_node_id, other_port_id)) ∧
    (dirValid1 ref node_name port_id other_node_name other_port_id = false →
      dirValid2 ref node_name port_id other_node_name other_port_id = true →
      resolveDirection ref node_name port_id other_node_name other_port_id
          node_id other_node_id
        = .ok (other_node_id, other_port_id, node_id, port_id)) ∧
    ((∃ err, resolveDirection ref node_name port_id other_node_name other_port_id
          node_id other_node_id = .error err) ↔
      (dirValid1 ref node_name port_id other_node_name other_port_id = false ∧
       dirValid2 ref node_name port_id other_node_name other_port_id = false)) := by
  rw [resolveDirection_eq]
  cases h1 : dirValid1 ref node_name port_id other_node_name other_port_id with
  | true => simp
  | false =>
      cases h2 : dirValid2 ref node_name port_id other_node_name other_port_id with
      | true => simp
      | false => simp

/-- C4 (witness): the amended claim at concrete schemas: with both
directions valid the first orientation is emitted without error; with an
empty catalog resolution fails. -/
theorem resolveDirection_spec_witness :
    resolveDirection bothValidRef "A" "p" "B" "q" "n1" "n2" = .ok ("n1", "p", "n2", "q") ∧
    (∃ err, resolveDirection [] "A" "p" "B" "q" "n1" "n2" = .error err) :=
  ⟨(resolveDirection_spec bothValidRef "A" "p" "B" "q" "n1" "n2").1 (by decide),
   (resolveDirection_spec [] "A" "p" "B" "q" "n1" "n2").2.2.2 ⟨by decide, by decide⟩⟩

lemma assocLookup_mem_nodup {β : Type} : ∀ (l : List (String × β)),
    (l.map Prod.fst).Nodup → ∀ k v, (k, v) ∈ l → assocLookup l k = some v := by
  intro l
  induction l with
  | nil => intro _ k v h; exact absurd h (List.not_mem_nil _)
  | cons p l ih =>
      intro hnd k v h
      rcases List.mem_cons.1 h with h | h
      · subst h
        simp [assocLookup]
      · have hk : p.1 ≠ k := by
          intro hc
          have : k ∈ l.map Prod.fst := List.mem_map.2 ⟨(k, v), h, rfl⟩
          rw [List.map_cons] at hnd
          exact (List.nodup_cons.1 hnd).1 (hc ▸ this)
        have := ih (by rw [List.map_cons] at hnd; exact (List.nodup_cons.1 hnd).2) k v h
        simp [assocLookup, hk, this]

lemma foldlM_except_inv {σ α : Type} (f : σ → α → Except PyException σ) (P : σ → Prop)
    (Q : α → Prop)
    (hstep : ∀ s a, Q a → P s → ∀ s2, f s a = .ok s2 → P s2) :
    ∀ (l : List α) (s s2 : σ), (∀ a ∈ l, Q a) → P s → l.foldlM f s = .ok s2 → P s2 := by
  intro l
  induction l with
  | nil =>
      intro s s2 _ hP h
      have h' : (Except.ok s : Except PyException σ) = .ok s2 := h
      injection h' with h''
      exact h'' ▸ hP
  | cons a l ih =>
      intro s s2 hQ hP h
      rw [List.foldlM_cons] at h
      cases hf : f s a with
      | error e =>
          rw [hf, exceptBind_error] at h
          exact Except.noConfusion h
      | ok s1 =>
          rw [hf, exceptBind_ok] at h
          exact ih s1 s2 (fun b hb => hQ b (List.mem_cons_of_mem _ hb))
            (hstep s a (hQ a (List.mem_cons_self _ _)) hP s1 hf) h

lemma resolveDirection_ok_cases (ref : List (String × Schema))
    (node_name port_id other_node_name other_port_id node_id other_node_id o op i ip : String)
    (h : resolveDirection ref node_name port_id other_node_name other_port_id
        node_id other_node_id = .ok (o, op, i, ip)) :
    (o = node_id ∧ i = other_node_id) ∨ (o = other_node_id ∧ i = node_id) := by
  rw [resolveDirection_eq] at h
  split at h
  · injection h with h'
    injection h' with h1 h'
    injection h' with h2 h'
    injection h' with h3 h4
    exact Or.inl ⟨h1.symm, h3.symm⟩
  · split at h
    · injection h with h'
      injection h' with h1 h'
      injection h' with h2 h'
      injection h' with h3 h4
      exact Or.inr ⟨h1.symm, h3.symm⟩
    · exact Except.noConfusion h

/-- The canonical-edge invariant preserved by `convert_repr`: a Constant
node appears as a target only when the source is a Constant too. -/
def ConstSourceInv (graph : List (String × BNode)) (edges : List AEdge) : Prop :=
  ∀ e ∈ edges, nameInGraph graph e.inNodeID = some ("Constant") →
    nameInGraph graph e.outNodeID = some ("Constant")

lemma convProcessEdge_inv (graph : List (String × BNode)) (ref : List (String × Schema))
    (node_id node_name : String)
    (hname : nameInGraph graph node_id = some node_name)
    (st : ConvState) (edge : BEdge) (st2 : ConvState)
    (h : convProcessEdge graph ref node_id node_name st edge = .ok st2)
    (hP : ConstSourceInv graph st.aedges) : ConstSourceInv graph st2.aedges := by
  cases hl : assocLookup graph edge.otherNodeID with
  | none =>
      simp only [convProcessEdge, hl] at h
      exact Except.noConfusion h
  | some other_data =>
      simp only [convProcessEdge, hl] at h
      have hothername : nameInGraph graph edge.otherNodeID = some other_data.nodeName := by
        unfold nameInGraph
        rw [hl]
        rfl
      split at h
      · -- already processed: state unchanged
        injection h with h'
        exact h'.symm ▸ hP
      · split at h
        · -- node is a Constant: it becomes the source
          rename_i hcon
          injection h with h'
          rw [← h']
          intro e he hin
          rcases List.mem_append.1 he with he | he
          · exact hP e he hin
          · simp only [List.mem_singleton] at he
            subst he
            rw [hname, hcon]
        · split at h
          · -- the peer is a Constant: the enumerated node is the target
            rename_i hncon hocon
            injection h with h'
            rw [← h']
            intro e he hin
            rcases List.mem_append.1 he with he | he
            · exact hP e he hin
            · simp only [List.mem_singleton] at he
              subst he
              simp only at hin
              rw [hname] at hin
              injection hin with hc
              exact absurd hc hncon
          · -- neither endpoint is a Constant
            rename_i hncon hocon
            split at h
            · rename_i hdir
              exact Except.noConfusion h
            · rename_i o op i ip hdir
              injection h with h'
              rw [← h']
              intro e he hin
              rcases List.mem_append.1 he with he | he
              · exact hP e he hin
              · simp only [List.mem_singleton] at he
                subst he
                simp only at hin
                rcases resolveDirection_ok_cases _ _ _ _ _ _ _ _ _ _ _ hdir with
                  ⟨ho, hi⟩ | ⟨ho, hi⟩
                · rw [hi] at hin
                  rw [hothername] at hin
                  injection hin with hc
                  exact absurd hc hocon
                · rw [hi] at hin
                  rw [hname] at hin
                  injection hin with hc
                  exact absurd hc hncon

lemma convProcessNode_inv (graph : List (String × BNode)) (ref : List (String × Schema))
    (st : ConvState) (entry : String × BNode) (st2 : ConvState)
    (hq : assocLookup graph entry.1 = some entry.2)
    (h : convProcessNode graph ref st entry = .ok st2)
    (hP : ConstSourceInv graph st.aedges) : ConstSourceInv graph st2.aedges := by
  unfold convProcessNode at h
  split at h
  · injection h with h'
    exact h'.symm ▸ hP
  · have hname : nameInGraph graph entry.1 = some entry.2.nodeName := by
      unfold nameInGraph
      rw [hq]
      rfl
    refine foldlM_except_inv (convProcessEdge graph ref entry.1 entry.2.nodeName)
      (fun s => ConstSourceInv graph s.aedges) (fun _ => True)
      ?_ entry.2.edges st st2 (fun _ _ => trivial) hP h
    intro s a _ hPs s2 hs2
    exact convProcessEdge_inv graph ref entry.1 entry.2.nodeName hname s a s2 hs2 hPs

/-- C5 (amended): in the canonical edge list produced by `convert_repr`, a
Constant node is the target of an edge only when the edge's source is a
Constant as well (which happens exactly when a wire joins two Constants;
with exactly one Constant endpoint, the Constant is always the source). -/
theorem convert_repr_constant_source (graph : List (String × BNode))
    (ref : List (String × Schema)) (hN : (graph.map Prod.fst).Nodup)
    (ag : AGraph) (h : convert_repr graph ref = .ok ag) :
    ∀ e ∈ ag.edges, nameInGraph graph e.inNodeID = some ("Constant") →
      nameInGraph graph e.outNodeID = some ("Constant") := by
  unfold convert_repr at h
  cases hst : graph.foldlM (convProcessNode graph ref) ⟨[], []⟩ with
  | error e =>
      rw [hst, exceptBind_error] at h
      exact Except.noConfusion h
  | ok st =>
      rw [hst, exceptBind_ok] at h
      injection h with h'
      have hedges : ag.edges = st.aedges := by rw [← h']
      rw [hedges]
      refine foldlM_except_inv (convProcessNode graph ref)
        (fun s => ConstSourceInv graph s.aedges)
        (fun entry => assocLookup graph entry.1 = some entry.2) ?_ graph ⟨[], []⟩ st
        (fun a ha => assocLookup_mem_nodup graph hN a.1 a.2 ha) ?_ hst
      · intro s a hq hPs s2 hs2
        exact convProcessNode_inv graph ref s a s2 hq hs2 hPs
      · intro e he
        exact absurd he (List.not_mem_nil _)

/-- C5 (witness): the amended claim applied to the two-Constant graph: its
single emitted edge has a Constant target, and indeed a Constant source. -/
theorem convert_repr_constant_source_witness :
    nameInGraph twoConstGraph (AEdge.mk "c1" "" "c2" "").outNodeID = some ("Constant") :=
  convert_repr_constant_source twoConstGraph [] (by decide)
    ⟨[("c1", ⟨"Constant", some (.num (.finite 5))⟩),
      ("c2", ⟨"Constant", some (.num (.finite 6))⟩)],
     [⟨"c1", "", "c2", ""⟩]⟩ (by decide)
    ⟨"c1", "", "c2", ""⟩ (by decide) (by decide)

/-- C5 (counterexample): when both endpoints of a wire are Constants, the
emitted canonical edge necessarily has a Constant as its target
(`inNodeID`), contradicting "never as its target ... including when both
endpoints of a wire are Constant nodes". -/
theorem convert_repr_constant_target_exists :
    convert_repr twoConstGraph [] =
      .ok ⟨[("c1", ⟨"Constant", some (.num (.finite 5))⟩),
            ("c2", ⟨"Constant", some (.num (.finite 6))⟩)],
        [⟨"c1", "", "c2", ""⟩]⟩ ∧
    nameInGraph twoConstGraph "c2" = some ("Constant") := by
  constructor
  · decide
  · decide
